import Mathlib

/-!
# Symbol table of the Fortran front end: refinement, generics, derived types, ordering

A shallow embedding of `flang/lib/Semantics/symbol.cpp`.  Symbols live in an
arena (`SymbolTable`) and refer to one another through non-owning references
(`SymbolRef`, the index of the symbol in the arena), so that the pointer
comparisons of the source (`&a == &b`, `Symbol::operator==`) become equality
of references.  A failed `CHECK` / `DIE` is an `Except.error`.  Scopes live in
an arena of their own (`ScopeTable`).  The namespace `mlir` embeds
`ensureSymbolNameIsUnique` of `mlir/lib/Conversion/LLVMCommon/PrintCallHelper.cpp`.
-/

namespace Fortran.semantics

/-! ## Data model -/

/-- A non-owning reference to a symbol: its identity (address) in the arena. -/
abbrev SymbolRef := Nat

/-- A non-owning reference to a scope. -/
abbrev ScopeRef := Nat

/-- A `SourceName` (`parser::CharBlock`): a range of the cooked source, given by
where it starts and the characters it covers. -/
structure SourceName where
  start : Nat
  chars : String
  deriving DecidableEq, Repr, Inhabited

/-- The tag of the alternative held by a `Details` variant, in the order of
`DetailsToString`. -/
inductive Kind where
  | Unknown | MainProgram | Module | Subprogram | SubprogramName | Entity
  | ObjectEntity | ProcEntity | DerivedType | Use | UseError | HostAssoc
  | Generic | ProcBinding | Namelist | CommonBlock | TypeParam | Misc
  | AssocEntity | UserReduction
  deriving DecidableEq, Repr, Inhabited

/-- The flags of a symbol that `symbol.cpp` names. -/
inductive Flag where
  | ModFile | ParentComp
  | OmpShared | OmpPrivate | OmpLinear | OmpUniform | OmpFirstPrivate
  | OmpLastPrivate | OmpMapTo | OmpMapFrom | OmpMapToFrom | OmpMapStorage
  | OmpMapDelete | OmpUseDevicePtr | OmpUseDeviceAddr | OmpCopyIn
  | OmpCopyPrivate | OmpIsDevicePtr | OmpHasDeviceAddr
  deriving DecidableEq, Repr, Inhabited

/-- The base class `WithBindName`: the optional binding name and its flags. -/
structure WithBindName where
  bindName : Option String := none
  isExplicitBindName : Bool := false
  isCDefined : Bool := false
  deriving DecidableEq, Repr, Inhabited

/-- The alternative `GenericKind::OtherKind`. -/
inductive OtherKind where
  | Name | DefinedOp | Assignment | Concat
  deriving DecidableEq, Repr, Inhabited

/-- The variant `GenericKind::u`; the operator and I/O enumerations are kept as
their ordinal. -/
inductive GenericKind where
  | Other (x : OtherKind)
  | NumericOperator (x : Nat)
  | LogicalOperator (x : Nat)
  | RelationalOperator (x : Nat)
  | DefinedIo (x : Nat)
  deriving DecidableEq, Repr, Inhabited

structure ModuleDetails where
  isSubmodule : Bool := false
  isDefaultPrivate : Bool := false
  scope : Option ScopeRef := none
  deriving DecidableEq, Repr, Inhabited

structure SubprogramDetails where
  bind : WithBindName := {}
  isInterface : Bool := false
  isDummy : Bool := false
  result : Option SymbolRef := none
  dummyArgs : List (Option SymbolRef) := []
  moduleInterface : Option SymbolRef := none
  deriving DecidableEq, Repr, Inhabited

structure SubprogramNameDetails where
  kind : Nat := 0
  deriving DecidableEq, Repr, Inhabited

structure EntityDetails where
  bind : WithBindName := {}
  isDummy : Bool := false
  isFuncResult : Bool := false
  type : Option Nat := none
  deriving DecidableEq, Repr, Inhabited

/-- An `ObjectEntityDetails` is an `EntityDetails` with a shape and a coshape;
of a shape the rank and whether it is assumed-rank are kept. -/
structure ObjectEntityDetails where
  entity : EntityDetails := {}
  shapeRank : Nat := 0
  isAssumedRank : Bool := false
  coshapeRank : Nat := 0
  deriving DecidableEq, Repr, Inhabited

structure ProcEntityDetails where
  entity : EntityDetails := {}
  procInterface : Option SymbolRef := none
  passName : Option SourceName := none
  deriving DecidableEq, Repr, Inhabited

structure DerivedTypeDetails where
  sequence : Bool := false
  isForwardReferenced : Bool := false
  componentNames : List SourceName := []
  finals : List (SourceName × SymbolRef) := []
  deriving DecidableEq, Repr, Inhabited

/-- A `UseDetails`: where the name is imported, and the symbol it is
use-associated with (the one named by the import, which may itself be
use-associated). -/
structure UseDetails where
  location : SourceName
  symbol : SymbolRef
  deriving DecidableEq, Repr, Inhabited

structure UseErrorDetails where
  occurrences : List (SourceName × SymbolRef) := []
  deriving DecidableEq, Repr, Inhabited

structure HostAssocDetails where
  symbol : SymbolRef
  deriving DecidableEq, Repr, Inhabited

/-- A `GenericDetails`: the candidate specific procedures, their binding names
(a parallel list), and the symbols of the same name. -/
structure GenericDetails where
  kind : GenericKind := .Other .Name
  specificProcs : List SymbolRef := []
  bindingNames : List SourceName := []
  specific : Option SymbolRef := none
  derivedType : Option SymbolRef := none
  uses : List SymbolRef := []
  deriving DecidableEq, Repr, Inhabited

structure ProcBindingDetails where
  symbol : SymbolRef
  passName : Option SourceName := none
  deriving DecidableEq, Repr, Inhabited

structure NamelistDetails where
  objects : List SymbolRef := []
  deriving DecidableEq, Repr, Inhabited

structure CommonBlockDetails where
  bind : WithBindName := {}
  alignment : Nat := 0
  objects : List SymbolRef := []
  deriving DecidableEq, Repr, Inhabited

structure TypeParamDetails where
  attr : Option Nat := none
  type : Option Nat := none
  deriving DecidableEq, Repr, Inhabited

structure MiscDetails where
  kind : Nat := 0
  deriving DecidableEq, Repr, Inhabited

structure AssocEntityDetails where
  entity : EntityDetails := {}
  rank : Option Int := none
  isTypeGuard : Bool := false
  deriving DecidableEq, Repr, Inhabited

structure UserReductionDetails where
  typeList : List Nat := []
  deriving DecidableEq, Repr, Inhabited

/-- The variant `Details`: exactly one alternative at any time. -/
inductive Details where
  | Unknown
  | MainProgram
  | Module (x : ModuleDetails)
  | Subprogram (x : SubprogramDetails)
  | SubprogramName (x : SubprogramNameDetails)
  | Entity (x : EntityDetails)
  | ObjectEntity (x : ObjectEntityDetails)
  | ProcEntity (x : ProcEntityDetails)
  | DerivedType (x : DerivedTypeDetails)
  | Use (x : UseDetails)
  | UseError (x : UseErrorDetails)
  | HostAssoc (x : HostAssocDetails)
  | Generic (x : GenericDetails)
  | ProcBinding (x : ProcBindingDetails)
  | Namelist (x : NamelistDetails)
  | CommonBlock (x : CommonBlockDetails)
  | TypeParam (x : TypeParamDetails)
  | Misc (x : MiscDetails)
  | AssocEntity (x : AssocEntityDetails)
  | UserReduction (x : UserReductionDetails)
  deriving DecidableEq, Repr, Inhabited

/-- The alternative a `Details` value holds (`details.index()`). -/
def Details.kind : Details → Kind
  | .Unknown => .Unknown
  | .MainProgram => .MainProgram
  | .Module _ => .Module
  | .Subprogram _ => .Subprogram
  | .SubprogramName _ => .SubprogramName
  | .Entity _ => .Entity
  | .ObjectEntity _ => .ObjectEntity
  | .ProcEntity _ => .ProcEntity
  | .DerivedType _ => .DerivedType
  | .Use _ => .Use
  | .UseError _ => .UseError
  | .HostAssoc _ => .HostAssoc
  | .Generic _ => .Generic
  | .ProcBinding _ => .ProcBinding
  | .Namelist _ => .Namelist
  | .CommonBlock _ => .CommonBlock
  | .TypeParam _ => .TypeParam
  | .Misc _ => .Misc
  | .AssocEntity _ => .AssocEntity
  | .UserReduction _ => .UserReduction

/-- A `Symbol`: owner scope, name, attributes, flags, the scope it introduces,
storage offset and size, and one `Details` value. -/
structure Symbol where
  owner : ScopeRef
  name : SourceName
  attrs : List Nat := []
  flags : List Flag := []
  scope : Option ScopeRef := none
  offset : Nat := 0
  size : Nat := 0
  details : Details := .Unknown
  deriving DecidableEq, Repr, Inhabited

/-- The arena of symbols; a `SymbolRef` is an index into it. -/
abbrev SymbolTable := List Symbol

/-- The member `Symbol::has<D>()`: the details hold the alternative `D`. -/
def Symbol.has (s : Symbol) (k : Kind) : Bool :=
  s.details.kind == k

/-- The member `Symbol::detailsIf<DerivedTypeDetails>()`. -/
def Symbol.detailsIfDerivedType (s : Symbol) : Option DerivedTypeDetails :=
  match s.details with
  | .DerivedType x => some x
  | _ => none

/-- The member `Symbol::detailsIf<UseDetails>()`. -/
def Symbol.detailsIfUse (s : Symbol) : Option UseDetails :=
  match s.details with
  | .Use x => some x
  | _ => none

/-! ## The refinement policy -/

/-- The member `Symbol::CanReplaceDetails`: the visitor over the proposed details, after
the test for `UnknownDetails`.  The two `UseDetails::symbol()` are compared
with `Symbol::operator==`, which is identity of the two symbols. -/
def Symbol.CanReplaceDetails (s : Symbol) (details : Details) : Bool :=
  if s.has .Unknown then
    true
  else
    match details with
    | .UseError _ => true
    | .ObjectEntity _ => s.has .Entity
    | .ProcEntity _ => s.has .Entity
    | .Subprogram _ => s.has .SubprogramName || s.has .Entity
    | .DerivedType _ =>
      match s.detailsIfDerivedType with
      | some derived => derived.isForwardReferenced
      | none => false
    | .Use x =>
      match s.detailsIfUse with
      | some use => use.symbol == x.symbol
      | none => false
    | .HostAssoc _ => s.has .HostAssoc
    | .UserReduction _ => s.has .UserReduction
    | _ => false

/-- The member `Symbol::set_details`: `CHECK(CanReplaceDetails(details))`, then the
details are replaced. -/
def Symbol.set_details (s : Symbol) (details : Details) : Except String Symbol :=
  if s.CanReplaceDetails details then
    .ok { s with details := details }
  else
    .error "CHECK(CanReplaceDetails(details)) failed"

/-! ## Ultimate symbols -/

/-- Follows at most `fuel` use-associations from `r`. -/
def GetUltimate.go (st : SymbolTable) : Nat → SymbolRef → SymbolRef
  | 0, r => r
  | fuel + 1, r =>
    match st[r]? with
    | some s =>
      match s.details with
      | .Use x => GetUltimate.go st fuel x.symbol
      | _ => r
    | none => r

/-- Modelled from the spec: `Symbol::GetUltimate`, which is declared in
`symbol.h` and has no definition in `symbol.cpp`.  "Ultimate resolution
follows a chain of Use-association details to the final non-Use symbol"; the
chain is acyclic, so it visits no symbol of the arena twice and the arena's
size is fuel enough. -/
def GetUltimate (st : SymbolTable) (r : SymbolRef) : SymbolRef :=
  GetUltimate.go st st.length r

/-- The arena is built in order: every use-association refers to a symbol
that was created before the symbol holding it ("an import always points
strictly toward an already-resolved external symbol"). -/
def SymbolTable.UsesEarlier (st : SymbolTable) : Prop :=
  ∀ (r : SymbolRef) (s : Symbol) (x : UseDetails),
    st[r]? = some s → s.details = .Use x → x.symbol < r

/-! ## Merging generics -/

/-- The macro `CHECK(cond)`: a fatal error when the condition is false. -/
def CHECK (cond : Bool) (msg : String) : Except String Unit :=
  if cond then .ok () else .error msg

/-- The body of the loop of `GenericDetails::CopyFrom` for one index of the
source: `proc` is `from.specificProcs_[i]` and `bindingName` is
`from.bindingNames_[i]`; both are pushed when none of the candidates has the
ultimate symbol of `proc`. -/
def GenericDetails.CopyFrom.step (st : SymbolTable) (self : GenericDetails)
    (proc : SymbolRef) (bindingName : SourceName) : GenericDetails :=
  if !(self.specificProcs.any
        (fun mySymbol => GetUltimate st mySymbol == GetUltimate st proc)) then
    { self with
      specificProcs := self.specificProcs ++ [proc]
      bindingNames := self.bindingNames ++ [bindingName] }
  else
    self

/-- The loop of `GenericDetails::CopyFrom` over the indices of the source's
candidates; the two lists of the source have the same length when it runs. -/
def GenericDetails.CopyFrom.loop (st : SymbolTable) (self : GenericDetails)
    (other : List (SymbolRef × SourceName)) : GenericDetails :=
  other.foldl (fun g pb => GenericDetails.CopyFrom.step st g pb.1 pb.2) self

/-- The member `GenericDetails::CopyFrom(from)`; `other` is the source generic `from`. -/
def GenericDetails.CopyFrom (st : SymbolTable) (self other : GenericDetails) :
    Except String GenericDetails := do
  CHECK (self.specificProcs.length == self.bindingNames.length)
    "CHECK(specificProcs_.size() == bindingNames_.size()) failed"
  CHECK (other.specificProcs.length == other.bindingNames.length)
    "CHECK(from.specificProcs_.size() == from.bindingNames_.size()) failed"
  let self := { self with kind := other.kind }
  let self ←
    if other.derivedType.isSome then do
      CHECK (self.derivedType.isNone || self.derivedType == other.derivedType)
        "CHECK(!derivedType_ || derivedType_ == from.derivedType_) failed"
      pure { self with derivedType := other.derivedType }
    else
      pure self
  pure (GenericDetails.CopyFrom.loop st self
    (other.specificProcs.zip other.bindingNames))

/-! ## Generics: candidates, derived type and the bound specific -/

/-- The member `GenericDetails::AddSpecificProc`: the procedure and its binding
name are pushed on the two lists. -/
def GenericDetails.AddSpecificProc (self : GenericDetails) (proc : SymbolRef)
    (bindingName : SourceName) : GenericDetails :=
  { self with
    specificProcs := self.specificProcs ++ [proc]
    bindingNames := self.bindingNames ++ [bindingName] }

/-- The member `GenericDetails::set_derivedType`: `CHECK(!derivedType_)`, then
the derived type is set. -/
def GenericDetails.set_derivedType (self : GenericDetails) (derivedType : SymbolRef) :
    Except String GenericDetails := do
  CHECK self.derivedType.isNone "CHECK(!derivedType_) failed"
  pure { self with derivedType := some derivedType }

/-- The test `has<D>()` on the symbol a reference stands for. -/
def SymbolTable.has (st : SymbolTable) (r : SymbolRef) (k : Kind) : Bool :=
  match st[r]? with
  | some s => s.has k
  | none => false

/-- The loop of `GenericDetails::CheckSpecific` over the candidates: null as
soon as a candidate has the ultimate symbol `ultimate`, the bound specific
after the last one. -/
def GenericDetails.CheckSpecific.loop (st : SymbolTable) (ultimate specific : SymbolRef) :
    List SymbolRef → Option SymbolRef
  | [] => some specific
  | proc :: rest =>
    if GetUltimate st proc == ultimate then none
    else GenericDetails.CheckSpecific.loop st ultimate specific rest

/-- The member `Symbol *GenericDetails::CheckSpecific()`, which is not `const`:
the result (`none` is the null pointer) and the generic after the call. -/
def GenericDetails.CheckSpecific (st : SymbolTable) (self : GenericDetails) :
    Option SymbolRef × GenericDetails :=
  match self.specific with
  | some specific =>
    if !(st.has specific .UseError) then
      let ultimate := GetUltimate st specific
      (GenericDetails.CheckSpecific.loop st ultimate specific self.specificProcs, self)
    else
      (none, self)
  | none => (none, self)

/-- The member `const Symbol *GenericDetails::CheckSpecific() const`: it casts
`this` and calls the other overload. -/
def GenericDetails.CheckSpecificConst (st : SymbolTable) (self : GenericDetails) :
    Option SymbolRef × GenericDetails :=
  GenericDetails.CheckSpecific st self

/-! ## Ordering by common block and offset -/

/-- The comparator `SymbolOffsetCompare::operator()`.  `FindCommonBlockContaining`
(of `tools.h`) and the comparator `SymbolSourcePositionCompare` (`sourceCmp`)
have no definition in `symbol.cpp` and are parameters.  Every branch of the
chain of conditions returns, so the statement after it, which returns
`Precedes(x->name(), y->name())`, is never reached and has no counterpart
here. -/
def SymbolOffsetCompare (FindCommonBlockContaining : Symbol → Option Symbol)
    (sourceCmp : Symbol → Symbol → Bool) (x y : Symbol) : Bool :=
  match FindCommonBlockContaining x, FindCommonBlockContaining y with
  | some xCommon, some yCommon =>
    if sourceCmp xCommon yCommon then
      true
    else if sourceCmp yCommon xCommon then
      false
    else if x.offset == y.offset then
      decide (x.size > y.size)
    else
      decide (x.offset < y.offset)
  | some _, none => false
  | none, some _ => true
  | none, none =>
    if x.offset == y.offset then
      decide (x.size > y.size)
    else
      decide (x.offset < y.offset)

/-! ## Derived types: components and final procedures -/

/-- The member `Symbol::test(flag)`. -/
def Symbol.test (s : Symbol) (f : Flag) : Bool :=
  s.flags.contains f

/-- The member `DerivedTypeDetails::add_component`: a parent component is
checked to be the first, then the name is pushed. -/
def DerivedTypeDetails.add_component (self : DerivedTypeDetails) (symbol : Symbol) :
    Except String DerivedTypeDetails := do
  if symbol.test .ParentComp then
    CHECK self.componentNames.isEmpty "CHECK(componentNames_.empty()) failed"
  pure { self with componentNames := self.componentNames ++ [symbol.name] }

/-- The member `Symbol::detailsIf<ObjectEntityDetails>()`. -/
def Symbol.detailsIfObjectEntity (s : Symbol) : Option ObjectEntityDetails :=
  match s.details with
  | .ObjectEntity x => some x
  | _ => none

/-- The member `Symbol::detailsIf<SubprogramDetails>()`. -/
def Symbol.detailsIfSubprogram (s : Symbol) : Option SubprogramDetails :=
  match s.details with
  | .Subprogram x => some x
  | _ => none

/-- The nested conditions of the loop body of `GetFinalForRank` for the final
procedure `symbol`; `IsElementalProcedure` (of `tools.h`) is a parameter. -/
def DerivedTypeDetails.GetFinalForRank.applies (st : SymbolTable)
    (IsElementalProcedure : Symbol → Bool) (rank : Int) (symbol : Symbol) : Bool :=
  match symbol.detailsIfSubprogram with
  | some details =>
    if details.dummyArgs.length == 1 then
      match details.dummyArgs[0]? with
      | some (some arg) =>
        match st[arg]? with
        | some argSymbol =>
          match argSymbol.detailsIfObjectEntity with
          | some object =>
            rank == (object.shapeRank : Int) || object.isAssumedRank ||
              IsElementalProcedure symbol
          | none => false
        | none => false
      | _ => false
    else
      false
  | none => false

/-- The loop of `GetFinalForRank` over `finals_` in the order of iteration. -/
def DerivedTypeDetails.GetFinalForRank.loop (st : SymbolTable)
    (IsElementalProcedure : Symbol → Bool) (rank : Int) :
    List (SourceName × SymbolRef) → Option SymbolRef
  | [] => none
  | pair :: rest =>
    match st[pair.2]? with
    | some symbol =>
      if DerivedTypeDetails.GetFinalForRank.applies st IsElementalProcedure rank symbol then
        some pair.2
      else
        DerivedTypeDetails.GetFinalForRank.loop st IsElementalProcedure rank rest
    | none => DerivedTypeDetails.GetFinalForRank.loop st IsElementalProcedure rank rest

/-- The member `DerivedTypeDetails::GetFinalForRank(rank)`; `none` is the null
pointer. -/
def DerivedTypeDetails.GetFinalForRank (st : SymbolTable)
    (IsElementalProcedure : Symbol → Bool) (self : DerivedTypeDetails) (rank : Int) :
    Option SymbolRef :=
  DerivedTypeDetails.GetFinalForRank.loop st IsElementalProcedure rank self.finals

/-! ## Names and binding names -/

/-- Modelled from the spec: `operator==` of `SourceName` (`parser::CharBlock`),
which has no definition under `src/`: two names are equal when they have
"identical characters", wherever they are in the source. -/
def SourceName.sameChars (a b : SourceName) : Bool :=
  a.chars == b.chars

/-- The member `Symbol::ReplaceName`: `CHECK(name == name_)`, then the name is
replaced. -/
def Symbol.ReplaceName (s : Symbol) (name : SourceName) : Except String Symbol := do
  CHECK (name.sameChars s.name) "CHECK(name == name_) failed"
  pure { s with name := name }

/-- The base `WithBindName` of the alternative held, when its type derives
from `WithBindName` (`HasBindName<decltype(&x)>`): these are the alternatives
of which `symbol.cpp` reads `bindName()`, directly or as an `EntityDetails`. -/
def Details.withBindName? : Details → Option WithBindName
  | .Subprogram x => some x.bind
  | .Entity x => some x.bind
  | .ObjectEntity x => some x.entity.bind
  | .ProcEntity x => some x.entity.bind
  | .CommonBlock x => some x.bind
  | .AssocEntity x => some x.entity.bind
  | _ => none

/-- The alternative held with its base `WithBindName` changed by `f`, when it
has one. -/
def Details.updateBindName? (f : WithBindName → WithBindName) : Details → Option Details
  | .Subprogram x => some (.Subprogram { x with bind := f x.bind })
  | .Entity x => some (.Entity { x with bind := f x.bind })
  | .ObjectEntity x =>
    some (.ObjectEntity { x with entity := { x.entity with bind := f x.entity.bind } })
  | .ProcEntity x =>
    some (.ProcEntity { x with entity := { x.entity with bind := f x.entity.bind } })
  | .CommonBlock x => some (.CommonBlock { x with bind := f x.bind })
  | .AssocEntity x =>
    some (.AssocEntity { x with entity := { x.entity with bind := f x.entity.bind } })
  | _ => none

/-- The member `Symbol::GetBindName`: the binding name of the base, or the null
pointer (`none`) for an alternative without the base.  No branch fails. -/
def Symbol.GetBindName (s : Symbol) : Except String (Option String) :=
  match s.details.withBindName? with
  | some x => .ok x.bindName
  | none => .ok none

/-- The member `Symbol::SetBindName`. -/
def Symbol.SetBindName (s : Symbol) (name : String) : Except String Symbol :=
  match s.details.updateBindName? (fun x => { x with bindName := some name }) with
  | some d => .ok { s with details := d }
  | none => .error "bind name not allowed on this kind of symbol"

/-- The member `Symbol::GetIsExplicitBindName`: the flag of the base, or `false`
for an alternative without the base.  No branch fails. -/
def Symbol.GetIsExplicitBindName (s : Symbol) : Except String Bool :=
  match s.details.withBindName? with
  | some x => .ok x.isExplicitBindName
  | none => .ok false

/-- The member `Symbol::SetIsExplicitBindName`. -/
def Symbol.SetIsExplicitBindName (s : Symbol) (yes : Bool) : Except String Symbol :=
  match s.details.updateBindName? (fun x => { x with isExplicitBindName := yes }) with
  | some d => .ok { s with details := d }
  | none => .error "bind name not allowed on this kind of symbol"

/-- The member `Symbol::SetIsCDefined`. -/
def Symbol.SetIsCDefined (s : Symbol) (yes : Bool) : Except String Symbol :=
  match s.details.updateBindName? (fun x => { x with isCDefined := yes }) with
  | some d => .ok { s with details := d }
  | none => .error "CDEFINED not allowed on this kind of symbol"

/-! ## Scopes -/

/-- Modelled from the spec: the kinds of scope ("module, subprogram, block,
top-level, …"), the enumeration `Scope::Kind` of `scope.h`, which is not under
`src/`. -/
inductive ScopeKind where
  | Global | IntrinsicModules | Module | MainProgram | Subprogram | BlockData
  | DerivedType | BlockConstruct | Forall | OtherConstruct | OpenACCConstruct
  | ImpliedDos | OtherClause
  deriving DecidableEq, Repr, Inhabited

/-- The name of a kind of scope, `Scope::EnumToString`. -/
def ScopeKind.EnumToString : ScopeKind → String
  | .Global => "Global"
  | .IntrinsicModules => "IntrinsicModules"
  | .Module => "Module"
  | .MainProgram => "MainProgram"
  | .Subprogram => "Subprogram"
  | .BlockData => "BlockData"
  | .DerivedType => "DerivedType"
  | .BlockConstruct => "BlockConstruct"
  | .Forall => "Forall"
  | .OtherConstruct => "OtherConstruct"
  | .OpenACCConstruct => "OpenACCConstruct"
  | .ImpliedDos => "ImpliedDos"
  | .OtherClause => "OtherClause"

/-- A `Scope`: its kind, its parent (none for the root of the tree), its child
scopes in order, the symbol that introduced it, and the symbols declared in
it, by name. -/
structure Scope where
  kind : ScopeKind
  parent : Option ScopeRef := none
  children : List ScopeRef := []
  symbol : Option SymbolRef := none
  symbols : List (SourceName × SymbolRef) := []
  deriving DecidableEq, Repr, Inhabited

/-- The arena of scopes; a `ScopeRef` is an index into it. -/
abbrev ScopeTable := List Scope

/-- Modelled from the spec: `Scope::IsTopLevel`, which is declared in `scope.h`:
being top-level is a matter of the kind of the scope ("a kind (module,
subprogram, block, top-level, …)"), and the top-level kinds are Global and
IntrinsicModules, whether or not the scope has a parent. -/
def Scope.IsTopLevel (sc : Scope) : Bool :=
  sc.kind == .Global || sc.kind == .IntrinsicModules

/-- The member `Scope::find(name)`: the symbol declared under the characters of
`name`, if any (`none` is `cend()`). -/
def Scope.find (scope : Scope) (name : SourceName) : Option SymbolRef :=
  (scope.symbols.find? (fun entry => entry.1.sameChars name)).map (fun entry => entry.2)

/-- Modelled from the spec: `DerivedTypeDetails::GetParentComponentName`, which
is declared in `symbol.h`: the parent component "must be the first one
recorded", so its name is the first component name, if there is one. -/
def DerivedTypeDetails.GetParentComponentName (self : DerivedTypeDetails) :
    Option SourceName :=
  self.componentNames.head?

/-- The member `DerivedTypeDetails::GetParentComponent(scope)`; `none` is the
null pointer. -/
def DerivedTypeDetails.GetParentComponent (st : SymbolTable) (self : DerivedTypeDetails)
    (scope : Scope) : Option SymbolRef :=
  match self.GetParentComponentName with
  | some extendsName =>
    match scope.find extendsName with
    | some iter =>
      match st[iter]? with
      | some symbol => if symbol.test .ParentComp then some iter else none
      | none => none
    | none => none
  | none => none

/-- The member `Symbol::GetParentComponent(scope)`: `scope` may be null, and
then the scope of the symbol itself is taken. -/
def Symbol.GetParentComponent (scopes : ScopeTable) (st : SymbolTable) (s : Symbol)
    (scope : Option ScopeRef) : Option SymbolRef :=
  match s.detailsIfDerivedType with
  | some dtDetails =>
    match (if scope.isSome then scope else s.scope) with
    | some localScope =>
      match scopes[localScope]? with
      | some sc => dtDetails.GetParentComponent st sc
      | none => none
    | none => none
  | none => none

/-- The loop of `DumpUniqueName` over the children of the parent: it stops at
`scope` and counts the children before it that have its kind. -/
def DumpUniqueName.index (scopes : ScopeTable) (scope : ScopeRef) (kind : ScopeKind) :
    List ScopeRef → Nat → Nat
  | [], index => index
  | child :: rest, index =>
    if child == scope then
      index
    else if (scopes[child]?).map (fun c => c.kind) == some kind then
      DumpUniqueName.index scopes scope kind rest (index + 1)
    else
      DumpUniqueName.index scopes scope kind rest index

/-- What `DumpUniqueName` writes after the `'/'` for a scope `sc` (at `scope`)
that is not top-level: the name of its symbol, or its kind with an index. -/
def DumpUniqueName.segment (scopes : ScopeTable) (st : SymbolTable) (scope : ScopeRef)
    (sc : Scope) (parent : ScopeRef) : String :=
  match (sc.symbol.bind (fun r => st[r]?)).filter (fun y => y.name.chars != "") with
  | some scopeSymbol => scopeSymbol.name.chars
  | none =>
    sc.kind.EnumToString ++
      Nat.repr (DumpUniqueName.index scopes scope sc.kind
        (match scopes[parent]? with
         | some p => p.children
         | none => []) 1)

/-- The recursion of `DumpUniqueName` towards a top-level scope, with fuel for
the number of scopes on the way: nothing is written unless
`!scope.IsTopLevel()`, and then the text for `scope.parent()` comes first (a
scope that is not top-level has a parent). -/
def DumpUniqueName.go (scopes : ScopeTable) (st : SymbolTable) : Nat → ScopeRef → String
  | 0, _ => ""
  | fuel + 1, scope =>
    match scopes[scope]? with
    | some sc =>
      if !sc.IsTopLevel then
        match sc.parent with
        | some parent =>
          DumpUniqueName.go scopes st fuel parent ++ "/" ++
            DumpUniqueName.segment scopes st scope sc parent
        | none => ""
      else
        ""
    | none => ""

/-- The function `DumpUniqueName`: the text it writes for a scope.  The scopes
form a tree, so the way to a top-level scope is shorter than the arena. -/
def DumpUniqueName (scopes : ScopeTable) (st : SymbolTable) (scope : ScopeRef) : String :=
  DumpUniqueName.go scopes st scopes.length scope

end Fortran.semantics

namespace mlir

/-! ## Unique symbol names in a module (`PrintCallHelper.cpp`) -/

/-- A module, as far as the lookup of symbols goes: the names of its symbols. -/
abbrev ModuleOp := List String

/-- The member `ModuleOp::lookupSymbol(name)`, as the test for a non-null
result. -/
def ModuleOp.lookupSymbol (moduleOp : ModuleOp) (name : String) : Bool :=
  moduleOp.contains name

/-- The `while` loop of `ensureSymbolNameIsUnique` on the path without symbol
tables, with fuel for the number of tests; `counter` is the `static int`, a
natural number as long as it stays below `2 ^ 31`, and `Nat.repr` is
`std::to_string`. -/
def ensureSymbolNameIsUnique.loop (moduleOp : ModuleOp) (symbolName : String) :
    Nat → String → Nat → Option (String × Nat)
  | 0, _, _ => none
  | fuel + 1, uniqueName, counter =>
    if moduleOp.lookupSymbol uniqueName then
      ensureSymbolNameIsUnique.loop moduleOp symbolName fuel
        (symbolName ++ "_" ++ Nat.repr counter) (counter + 1)
    else
      some (uniqueName, counter)

/-- The function `ensureSymbolNameIsUnique(moduleOp, symbolName, nullptr)`: the
name it returns and the value of the static counter afterwards.  Each test
that succeeds finds another symbol of the module, so one test more than the
module has symbols is fuel enough. -/
def ensureSymbolNameIsUnique (moduleOp : ModuleOp) (symbolName : String) (counter : Nat) :
    Option (String × Nat) :=
  ensureSymbolNameIsUnique.loop moduleOp symbolName (moduleOp.length + 1) symbolName counter

end mlir

namespace Fortran.semantics

/-! ## The properties stated of the code -/

/-- The kinds for which the visitor of `CanReplaceDetails` has no case of
their own. -/
def kindsWithoutRule : List Kind :=
  [.Unknown, .MainProgram, .Module, .SubprogramName, .Entity, .Generic,
   .ProcBinding, .Namelist, .CommonBlock, .TypeParam, .Misc, .AssocEntity]

/-- The table of the refinement policy, read by kinds: the pairs (current
kind, proposed kind) for which the table has a rule allowing a replacement. -/
def tableHasRule (current proposed : Kind) : Bool :=
  current == .Unknown ||
  ((proposed == .ObjectEntity || proposed == .ProcEntity) && current == .Entity) ||
  (proposed == .Subprogram && (current == .SubprogramName || current == .Entity)) ||
  (proposed == .DerivedType && current == .DerivedType) ||
  (proposed == .Use && current == .Use) ||
  (proposed == .HostAssoc && current == .HostAssoc) ||
  (proposed == .UserReduction && current == .UserReduction) ||
  proposed == .UseError

/-- A details value of each kind; the derived type is a forward reference. -/
def Details.sample : Kind → Details
  | .Unknown => .Unknown
  | .MainProgram => .MainProgram
  | .Module => .Module {}
  | .Subprogram => .Subprogram {}
  | .SubprogramName => .SubprogramName {}
  | .Entity => .Entity {}
  | .ObjectEntity => .ObjectEntity {}
  | .ProcEntity => .ProcEntity {}
  | .DerivedType => .DerivedType { isForwardReferenced := true }
  | .Use => .Use { location := ⟨0, "f"⟩, symbol := 0 }
  | .UseError => .UseError {}
  | .HostAssoc => .HostAssoc { symbol := 0 }
  | .Generic => .Generic {}
  | .ProcBinding => .ProcBinding { symbol := 0 }
  | .Namelist => .Namelist {}
  | .CommonBlock => .CommonBlock {}
  | .TypeParam => .TypeParam {}
  | .Misc => .Misc {}
  | .AssocEntity => .AssocEntity {}
  | .UserReduction => .UserReduction {}

/-- The candidates of `src` that a merge appends to a list `seen`, as the
specification words it: in the order of `src`, those whose ultimate symbol
(under `U`) is not the ultimate symbol of a candidate already in the list,
whether it was there before or was appended earlier. -/
def firstSeen (U : SymbolRef → SymbolRef) (seen : List SymbolRef) :
    List SymbolRef → List SymbolRef
  | [] => []
  | p :: ps =>
    if U p ∈ seen.map U then firstSeen U seen ps
    else p :: firstSeen U (seen ++ [p]) ps

/-- A final procedure that may be chosen for `rank`, as the specification
words it: a Subprogram with exactly one dummy argument, which is a non-null
ObjectEntity, whose declared rank is `rank`, or which is assumed-rank, or
whose procedure is elemental. -/
def FinalEligible (st : SymbolTable) (IsElementalProcedure : Symbol → Bool)
    (rank : Int) (r : SymbolRef) : Prop :=
  ∃ (symbol : Symbol) (details : SubprogramDetails) (arg : SymbolRef)
    (argSymbol : Symbol) (object : ObjectEntityDetails),
    st[r]? = some symbol ∧ symbol.details = .Subprogram details ∧
    details.dummyArgs = [some arg] ∧ st[arg]? = some argSymbol ∧
    argSymbol.details = .ObjectEntity object ∧
    (rank = (object.shapeRank : Int) ∨ object.isAssumedRank = true ∨
      IsElementalProcedure symbol = true)

/-- A sequence of calls of `add_component`, one for each symbol in turn, up to
the first call that fails. -/
def DerivedTypeDetails.addComponents (d : DerivedTypeDetails) :
    List Symbol → Except String DerivedTypeDetails
  | [] => .ok d
  | s :: rest =>
    match d.add_component s with
    | .ok d' => DerivedTypeDetails.addComponents d' rest
    | .error e => .error e

/-- A sequence of calls of `ReplaceName`, one for each name in turn, up to the
first call that fails. -/
def Symbol.replaceNames (s : Symbol) : List SourceName → Except String Symbol
  | [] => .ok s
  | n :: rest =>
    match s.ReplaceName n with
    | .ok s' => Symbol.replaceNames s' rest
    | .error e => .error e

/-- The kinds of details whose type derives from `WithBindName`. -/
def kindsWithBindName : List Kind :=
  [.Subprogram, .Entity, .ObjectEntity, .ProcEntity, .CommonBlock, .AssocEntity]

/-- One successful call of `set_details` takes the symbol `a` to `b`. -/
def Symbol.Refines (a b : Symbol) : Prop :=
  ∃ P : Details, a.set_details P = .ok b

/-- The relation on kinds allowed by `CanReplaceDetails`: some successful call
of `set_details` takes a symbol of kind `c` to one of kind `p`. -/
def kindStep (c p : Kind) : Prop :=
  ∃ a b : Symbol, a.Refines b ∧ a.details.kind = c ∧ b.details.kind = p

/-- The changes of kind that the specification lists: Unknown to any kind,
Entity to ObjectEntity, ProcEntity or Subprogram, SubprogramName to
Subprogram, and any kind to UseError. -/
def kindChange (c p : Kind) : Bool :=
  c == .Unknown ||
  (c == .Entity && (p == .ObjectEntity || p == .ProcEntity || p == .Subprogram)) ||
  (c == .SubprogramName && p == .Subprogram) ||
  p == .UseError

/-- How far a kind is along the refinement: Unknown, then the two provisional
kinds, then the classified kinds, then UseError. -/
def kindRank : Kind → Nat
  | .Unknown => 0
  | .Entity => 1
  | .SubprogramName => 1
  | .UseError => 3
  | _ => 2

/-- The scopes form a tree built from the root: the parent of a scope was
created before it. -/
def ScopeTable.ParentsEarlier (scopes : ScopeTable) : Prop :=
  ∀ (r : ScopeRef) (sc : Scope) (p : ScopeRef),
    scopes[r]? = some sc → sc.parent = some p → p < r

/-- The number of scopes of kind `kind` among `children` before the first
occurrence of `scope`. -/
def precedingOfKind (scopes : ScopeTable) (children : List ScopeRef) (scope : ScopeRef)
    (kind : ScopeKind) : Nat :=
  ((children.takeWhile (fun c => c != scope)).filter
    (fun c => (scopes[c]?).map (fun x => x.kind) == some kind)).length

/-- The value of a decimal digit. -/
def digitValue (c : Char) : Nat :=
  c.toNat - 48

/-- The number that a list of decimal digits, most significant first, adds to
`acc`. -/
def decodeDigits (acc : Nat) (l : List Char) : Nat :=
  l.foldl (fun a c => 10 * a + digitValue c) acc

/-! ## Example data -/

/-- A symbol named `f` in scope 2 with the given details. -/
def exampleSymbol (d : Details) : Symbol :=
  { owner := 2, name := ⟨40, "f"⟩, details := d }

/-- An arena: `f` of module `m1` (a subprogram), `f` of module `m2`
(use-associated with the first), and the local `f` that imports the second. -/
def exampleTable : SymbolTable :=
  [ { owner := 0, name := ⟨3, "f"⟩, details := .Subprogram {} },
    { owner := 1, name := ⟨20, "f"⟩,
      details := .Use { location := ⟨20, "f"⟩, symbol := 0 } },
    exampleSymbol (.Use { location := ⟨40, "f"⟩, symbol := 1 }),
    { owner := 0, name := ⟨9, "g"⟩, details := .Subprogram {} } ]

/-- A generic whose only candidate is `f` of module `m2`. -/
def exampleGeneric : GenericDetails :=
  { specificProcs := [1], bindingNames := [⟨20, "f"⟩] }

/-- A generic with the candidates local `f`, `g`, `f` of `m1`, and `g` again. -/
def exampleSource : GenericDetails :=
  { kind := .Other .Assignment
    specificProcs := [2, 3, 0, 3]
    bindingNames := [⟨40, "f"⟩, ⟨9, "g"⟩, ⟨3, "f"⟩, ⟨70, "g"⟩]
    derivedType := some 7 }

/-- A common block `x`. -/
def exampleCommonX : Symbol :=
  { owner := 0, name := ⟨5, "x"⟩, details := .CommonBlock {} }

/-- The object `a` of common block `x`: offset 0, size 8. -/
def exampleA : Symbol :=
  { owner := 0, name := ⟨10, "a"⟩, offset := 0, size := 8, details := .ObjectEntity {} }

/-- The object `b` of common block `x`: offset 0, size 4. -/
def exampleB : Symbol :=
  { owner := 0, name := ⟨12, "b"⟩, offset := 0, size := 4, details := .ObjectEntity {} }

/-- The object `c`, in no common block. -/
def exampleC : Symbol :=
  { owner := 0, name := ⟨30, "c"⟩, offset := 16, size := 4, details := .ObjectEntity {} }

/-- The common block of the example objects: `x` for `a` and `b`. -/
def exampleFindCommon (s : Symbol) : Option Symbol :=
  if s.name.start == 10 || s.name.start == 12 then some exampleCommonX else none

/-- Source positions compared by where the names start. -/
def examplePositionCompare (x y : Symbol) : Bool :=
  decide (x.name.start < y.name.start)

/-- An arena with three dummy arguments (of rank 1, assumed-rank, of rank 2)
and the three final procedures that take them. -/
def exampleFinalTable : SymbolTable :=
  [ { owner := 1, name := ⟨11, "v"⟩, details := .ObjectEntity { shapeRank := 1 } },
    { owner := 2, name := ⟨21, "r"⟩,
      details := .ObjectEntity { shapeRank := 1, isAssumedRank := true } },
    { owner := 3, name := ⟨31, "m"⟩, details := .ObjectEntity { shapeRank := 2 } },
    { owner := 0, name := ⟨10, "fin1"⟩, details := .Subprogram { dummyArgs := [some 0] } },
    { owner := 0, name := ⟨20, "fin2"⟩, details := .Subprogram { dummyArgs := [some 1] } },
    { owner := 0, name := ⟨30, "fin3"⟩, details := .Subprogram { dummyArgs := [some 2] } } ]

/-- A derived type with the three final procedures, in this order. -/
def exampleDerivedType : DerivedTypeDetails :=
  { finals := [(⟨10, "fin1"⟩, 3), (⟨20, "fin2"⟩, 4), (⟨30, "fin3"⟩, 5)] }

/-- The object `d`, in no common block, with the offset and the size of `c`
and a name later in the source. -/
def exampleD : Symbol :=
  { owner := 0, name := ⟨50, "d"⟩, offset := 16, size := 4, details := .ObjectEntity {} }

/-- A generic whose only candidate is `g`. -/
def exampleOther : GenericDetails :=
  { specificProcs := [3], bindingNames := [⟨9, "g"⟩] }

/-- An arena of scopes: the global scope, a module `m` in it, in the module
a block, a subprogram and a second block, the blocks without symbol; then
the scope of the intrinsic modules, a child of the global scope, and the
module `iso` in it. -/
def exampleScopes : ScopeTable :=
  [ { kind := .Global, children := [1, 5] },
    { kind := .Module, parent := some 0, children := [2, 3, 4], symbol := some 0,
      symbols := [(⟨60, "base"⟩, 2), (⟨70, "n"⟩, 3)] },
    { kind := .BlockConstruct, parent := some 1 },
    { kind := .Subprogram, parent := some 1, symbol := some 1 },
    { kind := .BlockConstruct, parent := some 1 },
    { kind := .IntrinsicModules, parent := some 0, children := [6] },
    { kind := .Module, parent := some 5, symbol := some 4 } ]

/-- The symbols of the example scopes: the module `m`, the subprogram `s`, a
parent component `base`, a component `n`, and the intrinsic module `iso`. -/
def exampleScopeSymbols : SymbolTable :=
  [ { owner := 0, name := ⟨7, "m"⟩, scope := some 1, details := .Module {} },
    { owner := 1, name := ⟨30, "s"⟩, scope := some 3, details := .Subprogram {} },
    { owner := 1, name := ⟨60, "base"⟩, flags := [.ParentComp], details := .ObjectEntity {} },
    { owner := 1, name := ⟨70, "n"⟩, details := .ObjectEntity {} },
    { owner := 5, name := ⟨0, "iso"⟩, scope := some 6, details := .Module {} } ]

/-! ## Theorems -/

/-! ### Ultimate symbols: the fuel is enough -/

theorem GetUltimate.go_of_none (st : SymbolTable) (fuel : Nat) (r : SymbolRef)
    (h : st[r]? = none) : GetUltimate.go st fuel r = r := by
  cases fuel with
  | zero => rfl
  | succ n => simp [GetUltimate.go, h]

theorem GetUltimate.go_of_use (st : SymbolTable) (n : Nat) (r : SymbolRef)
    (s : Symbol) (x : UseDetails) (h : st[r]? = some s) (hd : s.details = .Use x) :
    GetUltimate.go st (n + 1) r = GetUltimate.go st n x.symbol := by
  simp [GetUltimate.go, h, hd]

theorem GetUltimate.go_of_not_use (st : SymbolTable) (n : Nat) (r : SymbolRef)
    (s : Symbol) (h : st[r]? = some s) (hd : s.details.kind ≠ Kind.Use) :
    GetUltimate.go st (n + 1) r = r := by
  unfold GetUltimate.go
  rw [h]
  cases hk : s.details <;> simp_all [Details.kind]

theorem Details.eq_Use_of_kind (d : Details) (h : d.kind = Kind.Use) :
    ∃ x, d = .Use x := by
  cases d <;> simp_all [Details.kind]

theorem GetUltimate.go_not_use (st : SymbolTable) (hst : st.UsesEarlier) :
    ∀ (fuel : Nat) (r : Nat), r < fuel →
      ∀ s, st[GetUltimate.go st fuel r]? = some s → s.details.kind ≠ Kind.Use := by
  intro fuel
  induction fuel with
  | zero => intro r hr; omega
  | succ n ih =>
    intro r hr s hs
    cases hlook : st[r]? with
    | none =>
      rw [GetUltimate.go_of_none st _ r hlook, hlook] at hs
      cases hs
    | some s' =>
      by_cases hk : s'.details.kind = Kind.Use
      · obtain ⟨x, hx⟩ := Details.eq_Use_of_kind _ hk
        rw [GetUltimate.go_of_use st n r s' x hlook hx] at hs
        have hlt : x.symbol < r := hst r s' x hlook hx
        exact ih x.symbol (Nat.lt_of_lt_of_le hlt (Nat.le_of_lt_succ hr)) s hs
      · rw [GetUltimate.go_of_not_use st n r s' hlook hk, hlook] at hs
        injection hs with hs
        exact hs ▸ hk

/-- In an arena built in order, the ultimate symbol of a symbol is not itself
use-associated: following the chain stops before the fuel runs out. -/
theorem GetUltimate_not_use (st : SymbolTable) (hst : st.UsesEarlier)
    (r : SymbolRef) (s : Symbol) (h : st[GetUltimate st r]? = some s) :
    s.details.kind ≠ Kind.Use := by
  unfold GetUltimate at h
  by_cases hr : r < st.length
  · exact GetUltimate.go_not_use st hst st.length r hr s h
  · have hnone : st[r]? = none := List.getElem?_eq_none (Nat.le_of_not_lt hr)
    rw [GetUltimate.go_of_none st _ r hnone, hnone] at h
    cases h

/-- More fuel than the arena's size changes nothing. -/
theorem GetUltimate.go_fuel (st : SymbolTable) (hst : st.UsesEarlier) :
    ∀ (fuel₁ fuel₂ : Nat) (r : Nat), r < fuel₁ → r < fuel₂ →
      GetUltimate.go st fuel₁ r = GetUltimate.go st fuel₂ r := by
  intro fuel₁
  induction fuel₁ with
  | zero => intro fuel₂ r hr; omega
  | succ n ih =>
    intro fuel₂ r h₁ h₂
    cases fuel₂ with
    | zero => omega
    | succ m =>
      cases hlook : st[r]? with
      | none => rw [GetUltimate.go_of_none st _ r hlook, GetUltimate.go_of_none st _ r hlook]
      | some s' =>
        by_cases hk : s'.details.kind = Kind.Use
        · obtain ⟨x, hx⟩ := Details.eq_Use_of_kind _ hk
          rw [GetUltimate.go_of_use st n r s' x hlook hx,
            GetUltimate.go_of_use st m r s' x hlook hx]
          have hlt : x.symbol < r := hst r s' x hlook hx
          exact ih m x.symbol (Nat.lt_of_lt_of_le hlt (Nat.le_of_lt_succ h₁))
            (Nat.lt_of_lt_of_le hlt (Nat.le_of_lt_succ h₂))
        · rw [GetUltimate.go_of_not_use st n r s' hlook hk,
            GetUltimate.go_of_not_use st m r s' hlook hk]

/-- C1: a symbol whose details are Unknown accepts every proposed details
value, whatever its kind. -/
theorem CanReplaceDetails_from_Unknown (s : Symbol) (P : Details)
    (h : s.details.kind = Kind.Unknown) : s.CanReplaceDetails P = true := by
  simp [Symbol.CanReplaceDetails, Symbol.has, h]

theorem CanReplaceDetails_from_Unknown_witness :
    ({ owner := 0, name := ⟨0, "x"⟩ } : Symbol).details.kind = Kind.Unknown ∧
    ({ owner := 0, name := ⟨0, "x"⟩ } : Symbol).CanReplaceDetails
      (.Module {}) = true :=
  ⟨rfl, CanReplaceDetails_from_Unknown _ _ rfl⟩

/-- C2: a proposed UseError details value is accepted whatever the current
details of the symbol are. -/
theorem CanReplaceDetails_UseError (s : Symbol) (x : UseErrorDetails) :
    s.CanReplaceDetails (.UseError x) = true := by
  simp [Symbol.CanReplaceDetails]

/-- C3: a symbol whose details are not Unknown rejects every proposed details
value of a kind without a rule of its own (Unknown, MainProgram, Module,
SubprogramName, Entity, Generic, ProcBinding, Namelist, CommonBlock,
TypeParam, Misc, AssocEntity); and over all pairs of kinds, some replacement
of a current kind by a proposed kind succeeds exactly when the table has a
rule for the pair. -/
theorem CanReplaceDetails_no_rule_rejected :
    (∀ (s : Symbol) (P : Details), s.details.kind ≠ Kind.Unknown →
      P.kind ∈ kindsWithoutRule → s.CanReplaceDetails P = false) ∧
    (∀ (s : Symbol) (P : Details), s.CanReplaceDetails P = true →
      tableHasRule s.details.kind P.kind = true) ∧
    (∀ c p : Kind, tableHasRule c p = true →
      ∃ (s : Symbol) (P : Details), s.details.kind = c ∧ P.kind = p ∧
        s.CanReplaceDetails P = true) := by
  refine ⟨?_, ?_, ?_⟩
  · intro s P hs hP
    obtain ⟨o, n, a, f, sc, off, sz, d⟩ := s
    cases d <;> cases P <;>
      simp_all [Symbol.CanReplaceDetails, Symbol.has, Details.kind, kindsWithoutRule]
  · intro s P h
    obtain ⟨o, n, a, f, sc, off, sz, d⟩ := s
    cases d <;> cases P <;>
      simp_all [Symbol.CanReplaceDetails, Symbol.has, Details.kind, tableHasRule,
        Symbol.detailsIfDerivedType, Symbol.detailsIfUse]
  · intro c p h
    refine ⟨exampleSymbol (Details.sample c), Details.sample p, ?_, ?_, ?_⟩
    · cases c <;> rfl
    · cases p <;> rfl
    · cases c <;> cases p <;> first | rfl | (exact absurd h (by decide))

theorem CanReplaceDetails_no_rule_rejected_witness :
    (exampleSymbol (.Entity {})).CanReplaceDetails (.AssocEntity {}) = false :=
  CanReplaceDetails_no_rule_rejected.1 _ _ (by decide) (by decide)

/-- C4 as stated fails: in an arena built in order, the local `f` is
use-associated with `f` of `m2`, the proposed details name `f` of `m1`, both
have the same ultimate symbol (`f` of `m1`), and the replacement is refused. -/
theorem CanReplaceDetails_Use_same_ultimate_refused :
    exampleTable.UsesEarlier ∧
    (exampleSymbol (.Use { location := ⟨40, "f"⟩, symbol := 1 })).details.kind
        ≠ Kind.Unknown ∧
    (∃ use : UseDetails,
      (exampleSymbol (.Use { location := ⟨40, "f"⟩, symbol := 1 })).details = .Use use ∧
      GetUltimate exampleTable use.symbol =
        GetUltimate exampleTable
          ({ location := ⟨60, "f"⟩, symbol := 0 } : UseDetails).symbol) ∧
    (exampleSymbol (.Use { location := ⟨40, "f"⟩, symbol := 1 })).CanReplaceDetails
        (.Use { location := ⟨60, "f"⟩, symbol := 0 }) = false := by
  refine ⟨?_, by decide, ⟨_, rfl, rfl⟩, rfl⟩
  intro r s x hs hd
  rcases r with _ | _ | _ | _ | r <;>
    simp [exampleTable, exampleSymbol] at hs <;> subst hs <;> simp at hd
  · subst hd; decide
  · subst hd; decide

/-- C4, amended: a symbol whose details are not Unknown accepts proposed Use
details exactly when its details are Use details that name the same symbol
(the symbol the import names, not the end of its chain); when the two
ultimate symbols differ the replacement is refused. -/
theorem CanReplaceDetails_Use (st : SymbolTable) (s : Symbol) (x : UseDetails)
    (h : s.details.kind ≠ Kind.Unknown) :
    (s.CanReplaceDetails (.Use x) = true ↔
      ∃ use : UseDetails, s.details = .Use use ∧ use.symbol = x.symbol) ∧
    (∀ use : UseDetails, s.details = .Use use →
      GetUltimate st use.symbol ≠ GetUltimate st x.symbol →
      s.CanReplaceDetails (.Use x) = false) := by
  obtain ⟨o, n, a, f, sc, off, sz, d⟩ := s
  constructor
  · cases d <;>
      simp_all [Symbol.CanReplaceDetails, Symbol.has, Details.kind, Symbol.detailsIfUse]
  · intro use hd hne
    have hsym : use.symbol ≠ x.symbol := fun e => hne (by rw [e])
    simp only at hd
    subst hd
    simp [Symbol.CanReplaceDetails, Symbol.has, Details.kind, Symbol.detailsIfUse, hsym]

theorem CanReplaceDetails_Use_witness :
    ((exampleSymbol (.Use { location := ⟨40, "f"⟩, symbol := 1 })).CanReplaceDetails
        (.Use { location := ⟨60, "f"⟩, symbol := 1 }) = true ↔
      ∃ use : UseDetails,
        (exampleSymbol (.Use { location := ⟨40, "f"⟩, symbol := 1 })).details = .Use use ∧
        use.symbol = 1) ∧
    (exampleSymbol (.Use { location := ⟨40, "f"⟩, symbol := 1 })).CanReplaceDetails
        (.Use { location := ⟨60, "f"⟩, symbol := 1 }) = true :=
  ⟨(CanReplaceDetails_Use exampleTable _ ⟨⟨60, "f"⟩, 1⟩ (by decide)).1, rfl⟩

/-- C5: a symbol whose details are not Unknown accepts proposed DerivedType
details exactly when its details are DerivedType details that are still
forward-referenced. -/
theorem CanReplaceDetails_DerivedType (s : Symbol) (P : DerivedTypeDetails)
    (h : s.details.kind ≠ Kind.Unknown) :
    s.CanReplaceDetails (.DerivedType P) = true ↔
      ∃ derived : DerivedTypeDetails,
        s.details = .DerivedType derived ∧ derived.isForwardReferenced = true := by
  obtain ⟨o, n, a, f, sc, off, sz, d⟩ := s
  cases d <;>
    simp_all [Symbol.CanReplaceDetails, Symbol.has, Details.kind,
      Symbol.detailsIfDerivedType]

theorem CanReplaceDetails_DerivedType_witness :
    (exampleSymbol (.DerivedType { isForwardReferenced := true })).CanReplaceDetails
        (.DerivedType { componentNames := [⟨50, "x"⟩] }) = true ∧
    (exampleSymbol (.DerivedType { isForwardReferenced := false })).CanReplaceDetails
        (.DerivedType { componentNames := [⟨50, "x"⟩] }) = false :=
  ⟨(CanReplaceDetails_DerivedType _ _ (by decide)).2 ⟨_, rfl, rfl⟩,
   by rfl⟩

/-- C6: a symbol whose details are not Unknown accepts proposed Subprogram
details exactly when its details kind is SubprogramName or Entity. -/
theorem CanReplaceDetails_Subprogram (s : Symbol) (P : SubprogramDetails)
    (h : s.details.kind ≠ Kind.Unknown) :
    s.CanReplaceDetails (.Subprogram P) = true ↔
      (s.details.kind = Kind.SubprogramName ∨ s.details.kind = Kind.Entity) := by
  obtain ⟨o, n, a, f, sc, off, sz, d⟩ := s
  cases d <;> simp_all [Symbol.CanReplaceDetails, Symbol.has, Details.kind]

theorem CanReplaceDetails_Subprogram_witness :
    (exampleSymbol (.SubprogramName {})).CanReplaceDetails (.Subprogram {}) = true ∧
    ¬ (exampleSymbol (.ObjectEntity {})).CanReplaceDetails (.Subprogram {}) = true :=
  ⟨(CanReplaceDetails_Subprogram _ _ (by decide)).2 (Or.inl rfl),
   fun h => absurd ((CanReplaceDetails_Subprogram _ _ (by decide)).1 h) (by decide)⟩

/-- C7: a symbol whose details are not Unknown accepts proposed details of
kind ObjectEntity or ProcEntity exactly when its details kind is Entity. -/
theorem CanReplaceDetails_ObjectEntity_ProcEntity (s : Symbol) (P : Details)
    (h : s.details.kind ≠ Kind.Unknown)
    (hP : P.kind = Kind.ObjectEntity ∨ P.kind = Kind.ProcEntity) :
    s.CanReplaceDetails P = true ↔ s.details.kind = Kind.Entity := by
  obtain ⟨o, n, a, f, sc, off, sz, d⟩ := s
  cases d <;> cases P <;>
    simp_all [Symbol.CanReplaceDetails, Symbol.has, Details.kind]

theorem CanReplaceDetails_ObjectEntity_ProcEntity_witness :
    (exampleSymbol (.Entity {})).CanReplaceDetails (.ObjectEntity {}) = true ∧
    ¬ (exampleSymbol (.ObjectEntity {})).CanReplaceDetails (.ProcEntity {}) = true :=
  ⟨(CanReplaceDetails_ObjectEntity_ProcEntity (exampleSymbol (.Entity {}))
      (.ObjectEntity {}) (by decide) (Or.inl rfl)).2 rfl,
   fun h => absurd
     ((CanReplaceDetails_ObjectEntity_ProcEntity (exampleSymbol (.ObjectEntity {}))
        (.ProcEntity {}) (by decide) (Or.inr rfl)).1 h)
     (by decide)⟩

/-- C8: `set_details` fails exactly when `CanReplaceDetails` is false; when it
succeeds the details are the proposed ones and the name, owner, flags, offset
and size (and the attributes and scope) are those of before. -/
theorem set_details_spec (s : Symbol) (P : Details) :
    ((∃ e, s.set_details P = .error e) ↔ s.CanReplaceDetails P = false) ∧
    ((∃ s', s.set_details P = .ok s') ↔ s.CanReplaceDetails P = true) ∧
    (∀ s', s.set_details P = .ok s' →
      s'.details = P ∧ s'.name = s.name ∧ s'.owner = s.owner ∧
      s'.flags = s.flags ∧ s'.offset = s.offset ∧ s'.size = s.size ∧
      s'.attrs = s.attrs ∧ s'.scope = s.scope) := by
  unfold Symbol.set_details
  cases hc : s.CanReplaceDetails P
  · simp
  · simp only [if_true]
    refine ⟨by simp, by simp, ?_⟩
    intro s' hs'
    injection hs' with hs'
    subst hs'
    simp

theorem set_details_spec_witness :
    (exampleSymbol (.Entity {})).set_details (.ObjectEntity {}) =
        .ok (exampleSymbol (.ObjectEntity {})) ∧
    (∃ e, (exampleSymbol (.ObjectEntity {})).set_details (.Entity {}) = .error e) :=
  ⟨rfl, (set_details_spec _ _).1.2 rfl⟩

/-! ### First-seen lists -/

theorem firstSeen_sublist (U : SymbolRef → SymbolRef) (l : List SymbolRef) :
    ∀ seen, (firstSeen U seen l).Sublist l := by
  induction l with
  | nil => intro seen; simp [firstSeen]
  | cons p ps ih =>
    intro seen
    unfold firstSeen
    split
    · exact (ih seen).trans (List.sublist_cons_self p ps)
    · exact (ih _).cons₂ p

theorem firstSeen_mem_map (U : SymbolRef → SymbolRef) (l : List SymbolRef) :
    ∀ seen u, u ∈ (seen ++ firstSeen U seen l).map U ↔
      u ∈ seen.map U ∨ u ∈ l.map U := by
  induction l with
  | nil => intro seen u; simp [firstSeen]
  | cons p ps ih =>
    intro seen u
    unfold firstSeen
    split
    · rename_i hp
      rw [ih seen u]
      constructor
      · rintro (h | h)
        · exact Or.inl h
        · exact Or.inr (by simp only [List.map_cons, List.mem_cons]; exact Or.inr h)
      · rintro (h | h)
        · exact Or.inl h
        · simp only [List.map_cons, List.mem_cons] at h
          rcases h with h | h
          · exact Or.inl (h ▸ hp)
          · exact Or.inr h
    · have e : seen ++ p :: firstSeen U (seen ++ [p]) ps =
          (seen ++ [p]) ++ firstSeen U (seen ++ [p]) ps := by simp
      rw [e, ih (seen ++ [p]) u]
      simp only [List.map_append, List.map_cons, List.map_nil, List.mem_append,
        List.mem_cons, List.mem_singleton, List.not_mem_nil, or_false]
      tauto

theorem firstSeen_nodup (U : SymbolRef → SymbolRef) (l : List SymbolRef) :
    ∀ seen, (seen.map U).Nodup → ((seen ++ firstSeen U seen l).map U).Nodup := by
  induction l with
  | nil => intro seen h; simpa [firstSeen] using h
  | cons p ps ih =>
    intro seen h
    unfold firstSeen
    split
    · exact ih seen h
    · rename_i hp
      have e : seen ++ p :: firstSeen U (seen ++ [p]) ps =
          (seen ++ [p]) ++ firstSeen U (seen ++ [p]) ps := by simp
      rw [e]
      apply ih
      rw [List.map_append, List.map_singleton]
      exact List.Nodup.append h (List.nodup_singleton _)
        (by
          intro a ha hb
          rw [List.mem_singleton] at hb
          exact hp (hb ▸ ha))

theorem firstSeen_eq_nil (U : SymbolRef → SymbolRef) (seen l : List SymbolRef)
    (h : ∀ p ∈ l, U p ∈ seen.map U) : firstSeen U seen l = [] := by
  induction l with
  | nil => rfl
  | cons p ps ih =>
    unfold firstSeen
    rw [if_pos (h p (List.mem_cons_self _ _))]
    exact ih (fun q hq => h q (List.mem_cons_of_mem _ hq))

theorem firstSeen_cons_of_mem (U : SymbolRef → SymbolRef) (seen ps : List SymbolRef)
    (p : SymbolRef) (h : U p ∈ seen.map U) :
    firstSeen U seen (p :: ps) = firstSeen U seen ps := by
  rw [firstSeen, if_pos h]

theorem firstSeen_cons_of_not_mem (U : SymbolRef → SymbolRef)
    (seen ps : List SymbolRef) (p : SymbolRef) (h : U p ∉ seen.map U) :
    firstSeen U seen (p :: ps) = p :: firstSeen U (seen ++ [p]) ps := by
  rw [firstSeen, if_neg h]

theorem firstSeen_append (U : SymbolRef → SymbolRef) (l₁ l₂ : List SymbolRef) :
    ∀ seen, firstSeen U seen (l₁ ++ l₂) =
      firstSeen U seen l₁ ++ firstSeen U (seen ++ firstSeen U seen l₁) l₂ := by
  induction l₁ with
  | nil => intro seen; simp [firstSeen]
  | cons p ps ih =>
    intro seen
    rw [List.cons_append]
    by_cases hp : U p ∈ seen.map U
    · rw [firstSeen_cons_of_mem U seen _ p hp, firstSeen_cons_of_mem U seen _ p hp]
      exact ih seen
    · rw [firstSeen_cons_of_not_mem U seen _ p hp,
        firstSeen_cons_of_not_mem U seen _ p hp, ih (seen ++ [p])]
      simp

/-! ### The loop of `CopyFrom` -/

theorem CopyFrom.step_of_mem (st : SymbolTable) (g : GenericDetails) (p : SymbolRef)
    (b : SourceName)
    (h : GetUltimate st p ∈ g.specificProcs.map (GetUltimate st)) :
    GenericDetails.CopyFrom.step st g p b = g := by
  have hany : g.specificProcs.any
      (fun mySymbol => GetUltimate st mySymbol == GetUltimate st p) = true := by
    rw [List.any_eq_true]
    obtain ⟨a, ha, e⟩ := List.mem_map.1 h
    exact ⟨a, ha, by simp [e]⟩
  simp [GenericDetails.CopyFrom.step, hany]

theorem CopyFrom.step_of_not_mem (st : SymbolTable) (g : GenericDetails)
    (p : SymbolRef) (b : SourceName)
    (h : GetUltimate st p ∉ g.specificProcs.map (GetUltimate st)) :
    GenericDetails.CopyFrom.step st g p b =
      { g with specificProcs := g.specificProcs ++ [p]
               bindingNames := g.bindingNames ++ [b] } := by
  have hany : g.specificProcs.any
      (fun mySymbol => GetUltimate st mySymbol == GetUltimate st p) = false := by
    rw [Bool.eq_false_iff]
    intro ht
    rw [List.any_eq_true] at ht
    obtain ⟨a, ha, e⟩ := ht
    exact h (List.mem_map.2 ⟨a, ha, by simpa using e⟩)
  simp [GenericDetails.CopyFrom.step, hany]

theorem CopyFrom.loop_cons (st : SymbolTable) (g : GenericDetails)
    (z : SymbolRef × SourceName) (zs : List (SymbolRef × SourceName)) :
    GenericDetails.CopyFrom.loop st g (z :: zs) =
      GenericDetails.CopyFrom.loop st (GenericDetails.CopyFrom.step st g z.1 z.2) zs :=
  rfl

theorem CopyFrom.loop_specificProcs (st : SymbolTable)
    (zs : List (SymbolRef × SourceName)) :
    ∀ g : GenericDetails, (GenericDetails.CopyFrom.loop st g zs).specificProcs =
      g.specificProcs ++ firstSeen (GetUltimate st) g.specificProcs (zs.map Prod.fst) := by
  induction zs with
  | nil => intro g; simp [GenericDetails.CopyFrom.loop, firstSeen]
  | cons z zs ih =>
    intro g
    rw [CopyFrom.loop_cons, ih, List.map_cons]
    by_cases hp : GetUltimate st z.1 ∈ g.specificProcs.map (GetUltimate st)
    · rw [CopyFrom.step_of_mem st g z.1 z.2 hp, firstSeen_cons_of_mem _ _ _ _ hp]
    · rw [CopyFrom.step_of_not_mem st g z.1 z.2 hp,
        firstSeen_cons_of_not_mem _ _ _ _ hp]
      simp

theorem CopyFrom.loop_fields (st : SymbolTable) (zs : List (SymbolRef × SourceName)) :
    ∀ g : GenericDetails,
      (GenericDetails.CopyFrom.loop st g zs).kind = g.kind ∧
      (GenericDetails.CopyFrom.loop st g zs).derivedType = g.derivedType ∧
      (GenericDetails.CopyFrom.loop st g zs).specific = g.specific ∧
      (GenericDetails.CopyFrom.loop st g zs).uses = g.uses ∧
      (g.specificProcs.length = g.bindingNames.length →
        (GenericDetails.CopyFrom.loop st g zs).specificProcs.length =
          (GenericDetails.CopyFrom.loop st g zs).bindingNames.length) := by
  induction zs with
  | nil => intro g; simp [GenericDetails.CopyFrom.loop]
  | cons z zs ih =>
    intro g
    rw [CopyFrom.loop_cons]
    by_cases hp : GetUltimate st z.1 ∈ g.specificProcs.map (GetUltimate st)
    · rw [CopyFrom.step_of_mem st g z.1 z.2 hp]
      exact ih g
    · rw [CopyFrom.step_of_not_mem st g z.1 z.2 hp]
      obtain ⟨h1, h2, h3, h4, h5⟩ := ih { g with
        specificProcs := g.specificProcs ++ [z.1]
        bindingNames := g.bindingNames ++ [z.2] }
      refine ⟨h1, h2, h3, h4, fun hl => h5 ?_⟩
      simp [hl]

theorem CopyFrom.loop_id (st : SymbolTable) (g : GenericDetails)
    (zs : List (SymbolRef × SourceName))
    (h : ∀ z ∈ zs, GetUltimate st z.1 ∈ g.specificProcs.map (GetUltimate st)) :
    GenericDetails.CopyFrom.loop st g zs = g := by
  induction zs with
  | nil => rfl
  | cons z zs ih =>
    rw [CopyFrom.loop_cons, CopyFrom.step_of_mem st g z.1 z.2 (h z (List.mem_cons_self _ _))]
    exact ih (fun y hy => h y (List.mem_cons_of_mem _ hy))

/-- The merge `CopyFrom` completes exactly when its three `CHECK`s hold, and then its
result is that of the loop. -/
theorem CopyFrom.eq_ok_iff (st : SymbolTable) (G S G' : GenericDetails) :
    G.CopyFrom st S = .ok G' ↔
      G.specificProcs.length = G.bindingNames.length ∧
      S.specificProcs.length = S.bindingNames.length ∧
      (S.derivedType = none ∨ G.derivedType = none ∨ G.derivedType = S.derivedType) ∧
      G' = GenericDetails.CopyFrom.loop st
        { G with kind := S.kind
                 derivedType := if S.derivedType.isSome then S.derivedType
                                else G.derivedType }
        (S.specificProcs.zip S.bindingNames) := by
  unfold GenericDetails.CopyFrom CHECK
  by_cases h1 : G.specificProcs.length = G.bindingNames.length
  · by_cases h2 : S.specificProcs.length = S.bindingNames.length
    · cases hS : S.derivedType with
      | none =>
        simp [h1, h2, bind, Except.bind, pure, Except.pure, eq_comm]
      | some t =>
        cases hG : G.derivedType with
        | none => simp [h1, h2, bind, Except.bind, pure, Except.pure, eq_comm]
        | some t' =>
          by_cases ht : t' = t
          · simp [h1, h2, ht, bind, Except.bind, pure, Except.pure, eq_comm]
          · simp [h1, h2, ht, bind, Except.bind, pure, Except.pure]
    · simp [h1, h2, bind, Except.bind]
  · simp [h1, bind, Except.bind]

/-- C9: when the candidates of G have pairwise different ultimate symbols and
the checks of `CopyFrom` hold, `G.CopyFrom(S)` completes; the candidates of
the result are those of G followed, in the order of S, by exactly the
candidates of S whose ultimate symbol is not that of a candidate already in
the list; they again have pairwise different ultimate symbols, and their
ultimate symbols are those of G together with those of S.  A second source
merged afterwards gives the first-seen deduplicated union of G, S and it. -/
theorem CopyFrom_appends_first_seen (st : SymbolTable) (G S : GenericDetails)
    (hG : (G.specificProcs.map (GetUltimate st)).Nodup)
    (hGlen : G.specificProcs.length = G.bindingNames.length)
    (hSlen : S.specificProcs.length = S.bindingNames.length)
    (hdt : S.derivedType = none ∨ G.derivedType = none ∨
      G.derivedType = S.derivedType) :
    ∃ G', G.CopyFrom st S = .ok G' ∧
      G'.specificProcs = G.specificProcs ++
        firstSeen (GetUltimate st) G.specificProcs S.specificProcs ∧
      (firstSeen (GetUltimate st) G.specificProcs S.specificProcs).Sublist
        S.specificProcs ∧
      (G'.specificProcs.map (GetUltimate st)).Nodup ∧
      (∀ u, u ∈ G'.specificProcs.map (GetUltimate st) ↔
        u ∈ G.specificProcs.map (GetUltimate st) ∨
        u ∈ S.specificProcs.map (GetUltimate st)) ∧
      (∀ S₂ G'', G'.CopyFrom st S₂ = .ok G'' →
        G''.specificProcs = G.specificProcs ++
          firstSeen (GetUltimate st) G.specificProcs
            (S.specificProcs ++ S₂.specificProcs) ∧
        (G''.specificProcs.map (GetUltimate st)).Nodup ∧
        (∀ u, u ∈ G''.specificProcs.map (GetUltimate st) ↔
          u ∈ G.specificProcs.map (GetUltimate st) ∨
          u ∈ S.specificProcs.map (GetUltimate st) ∨
          u ∈ S₂.specificProcs.map (GetUltimate st))) := by
  have key : ∀ (A B A' : GenericDetails), A.CopyFrom st B = .ok A' →
      A'.specificProcs = A.specificProcs ++
        firstSeen (GetUltimate st) A.specificProcs B.specificProcs := by
    intro A B A' h
    obtain ⟨-, hB, -, rfl⟩ := (CopyFrom.eq_ok_iff st A B A').1 h
    rw [CopyFrom.loop_specificProcs, List.map_fst_zip _ _ (le_of_eq hB)]
  refine ⟨_, (CopyFrom.eq_ok_iff st G S _).2 ⟨hGlen, hSlen, hdt, rfl⟩, ?_⟩
  have hG' := key G S _ ((CopyFrom.eq_ok_iff st G S _).2 ⟨hGlen, hSlen, hdt, rfl⟩)
  refine ⟨hG', firstSeen_sublist _ _ _, ?_, ?_, ?_⟩
  · rw [hG']
    exact firstSeen_nodup _ _ _ hG
  · intro u
    rw [hG']
    exact firstSeen_mem_map _ _ _ u
  · intro S₂ G'' h₂
    have hG'' := key _ S₂ G'' h₂
    rw [hG'] at hG''
    have e : G''.specificProcs = G.specificProcs ++
        firstSeen (GetUltimate st) G.specificProcs
          (S.specificProcs ++ S₂.specificProcs) := by
      rw [hG'', firstSeen_append, List.append_assoc]
    refine ⟨e, ?_, ?_⟩
    · rw [e]
      exact firstSeen_nodup _ _ _ hG
    · intro u
      rw [e, firstSeen_mem_map, List.map_append, List.mem_append]

theorem CopyFrom_appends_first_seen_witness :
    ∃ G', exampleGeneric.CopyFrom exampleTable exampleSource = .ok G' ∧
      G'.specificProcs = [1, 3] := by
  obtain ⟨G', h, hp, -⟩ := CopyFrom_appends_first_seen exampleTable exampleGeneric
    exampleSource (by decide) rfl rfl (Or.inr (Or.inl rfl))
  exact ⟨G', h, hp.trans (by decide)⟩

/-- C10: when `G.CopyFrom(S)` completes with result G', a second
`CopyFrom(S)` on G' completes and leaves it as it is: the same candidates,
binding names, kind and derived type. -/
theorem CopyFrom_idempotent (st : SymbolTable) (G S G' : GenericDetails)
    (h : G.CopyFrom st S = .ok G') : G'.CopyFrom st S = .ok G' := by
  obtain ⟨hGlen, hSlen, -, hG'⟩ := (CopyFrom.eq_ok_iff st G S G').1 h
  obtain ⟨hk, hd, -, -, hlen⟩ := CopyFrom.loop_fields st
    (S.specificProcs.zip S.bindingNames)
    { G with kind := S.kind
             derivedType := if S.derivedType.isSome then S.derivedType
                            else G.derivedType }
  have hprocs := CopyFrom.loop_specificProcs st (S.specificProcs.zip S.bindingNames)
    { G with kind := S.kind
             derivedType := if S.derivedType.isSome then S.derivedType
                            else G.derivedType }
  rw [← hG'] at hk hd hlen hprocs
  simp only at hk hd hlen hprocs
  have hdt : (if S.derivedType.isSome then S.derivedType else G'.derivedType) =
      G'.derivedType := by
    rw [hd]
    split <;> rfl
  have hself : ({ G' with kind := S.kind
                          derivedType := if S.derivedType.isSome then S.derivedType
                                         else G'.derivedType } : GenericDetails) = G' := by
    rw [hdt, ← hk]
  refine (CopyFrom.eq_ok_iff st G' S G').2 ⟨hlen hGlen, hSlen, ?_, ?_⟩
  · cases hS : S.derivedType with
    | none => exact Or.inl rfl
    | some t => exact Or.inr (Or.inr (by rw [hd, hS]; rfl))
  · rw [hself]
    symm
    apply CopyFrom.loop_id
    intro z hz
    have hz1 : z.1 ∈ (S.specificProcs.zip S.bindingNames).map Prod.fst :=
      List.mem_map.2 ⟨z, hz, rfl⟩
    rw [hprocs]
    exact (firstSeen_mem_map _ _ _ _).2 (Or.inr (List.mem_map.2 ⟨z.1, hz1, rfl⟩))

theorem CopyFrom_idempotent_witness :
    exampleGeneric.CopyFrom exampleTable exampleSource =
      .ok { kind := .Other .Assignment
            specificProcs := [1, 3]
            bindingNames := [⟨20, "f"⟩, ⟨9, "g"⟩]
            derivedType := some 7 } ∧
    GenericDetails.CopyFrom exampleTable
      { kind := .Other .Assignment
        specificProcs := [1, 3]
        bindingNames := [⟨20, "f"⟩, ⟨9, "g"⟩]
        derivedType := some 7 } exampleSource =
      .ok { kind := .Other .Assignment
            specificProcs := [1, 3]
            bindingNames := [⟨20, "f"⟩, ⟨9, "g"⟩]
            derivedType := some 7 } :=
  ⟨rfl, CopyFrom_idempotent exampleTable exampleGeneric exampleSource _ rfl⟩

/-! ### The bound specific of a generic -/

theorem CheckSpecific.loop_eq (st : SymbolTable) (ultimate specific : SymbolRef)
    (l : List SymbolRef) :
    GenericDetails.CheckSpecific.loop st ultimate specific l =
      if ultimate ∈ l.map (GetUltimate st) then none else some specific := by
  induction l with
  | nil => simp [GenericDetails.CheckSpecific.loop]
  | cons a l ih =>
    unfold GenericDetails.CheckSpecific.loop
    by_cases h : GetUltimate st a = ultimate
    · simp [h]
    · have h' : ¬ ultimate = GetUltimate st a := fun e => h e.symm
      simp [h, h', ih]

/-- C11: `CheckSpecific` returns the bound specific exactly when one is bound,
it has no UseError details, and its ultimate symbol is not the ultimate symbol
of a candidate; it returns none in every other case; the `const` overload
returns the same, and the generic is the same after either call. -/
theorem CheckSpecific_spec (st : SymbolTable) (g : GenericDetails) :
    (∀ p, (g.CheckSpecific st).1 = some p ↔
      (g.specific = some p ∧ st.has p Kind.UseError = false ∧
        GetUltimate st p ∉ g.specificProcs.map (GetUltimate st))) ∧
    ((g.CheckSpecific st).1 = none ↔
      (g.specific = none ∨
        ∃ p, g.specific = some p ∧
          (st.has p Kind.UseError = true ∨
            GetUltimate st p ∈ g.specificProcs.map (GetUltimate st)))) ∧
    g.CheckSpecificConst st = g.CheckSpecific st ∧
    (g.CheckSpecific st).2 = g ∧ (g.CheckSpecificConst st).2 = g := by
  have h2 : (g.CheckSpecific st).2 = g := by
    unfold GenericDetails.CheckSpecific
    cases g.specific with
    | none => rfl
    | some sp => dsimp only; split <;> rfl
  refine ⟨?_, ?_, rfl, h2, h2⟩
  · intro p
    unfold GenericDetails.CheckSpecific
    cases hs : g.specific with
    | none => simp
    | some sp =>
      cases hu : st.has sp Kind.UseError
      · by_cases hm : GetUltimate st sp ∈ g.specificProcs.map (GetUltimate st)
        · simp only [hu, Bool.not_false, if_true, CheckSpecific.loop_eq, if_pos hm]
          constructor
          · intro h; cases h
          · rintro ⟨h, -, hn⟩
            injection h with h
            exact absurd (h ▸ hm) hn
        · simp only [hu, Bool.not_false, if_true, CheckSpecific.loop_eq, if_neg hm]
          constructor
          · intro h
            injection h with h
            subst h
            exact ⟨rfl, hu, hm⟩
          · rintro ⟨h, -, -⟩
            exact h
      · simp only [hu, Bool.not_true, Bool.false_eq_true, if_false]
        constructor
        · intro h; cases h
        · rintro ⟨h, hf, -⟩
          injection h with h
          rw [← h, hu] at hf
          cases hf
  · unfold GenericDetails.CheckSpecific
    cases hs : g.specific with
    | none => simp
    | some sp =>
      cases hu : st.has sp Kind.UseError
      · by_cases hm : GetUltimate st sp ∈ g.specificProcs.map (GetUltimate st)
        · simp only [hu, Bool.not_false, if_true, CheckSpecific.loop_eq, if_pos hm,
            true_iff]
          exact Or.inr ⟨sp, rfl, Or.inr hm⟩
        · simp only [hu, Bool.not_false, if_true, CheckSpecific.loop_eq, if_neg hm]
          constructor
          · intro h; cases h
          · rintro (h | ⟨p, h, hp⟩)
            · cases h
            · injection h with h
              subst h
              rcases hp with hp | hp
              · rw [hu] at hp; cases hp
              · exact absurd hp hm
      · simp only [hu, Bool.not_true, Bool.false_eq_true, if_false, true_iff]
        exact Or.inr ⟨sp, rfl, Or.inl hu⟩

theorem CheckSpecific_spec_witness :
    (GenericDetails.CheckSpecific exampleTable
      { specificProcs := [1], bindingNames := [⟨20, "f"⟩], specific := some 3 }).1 =
        some 3 ∧
    (GenericDetails.CheckSpecific exampleTable
      { specificProcs := [2], bindingNames := [⟨40, "f"⟩], specific := some 0 }).1 =
        none :=
  ⟨((CheckSpecific_spec exampleTable _).1 3).2 ⟨rfl, rfl, by decide⟩, rfl⟩

/-! ### Ordering by common block and offset -/

/-- C12 as stated fails: `a` is in common block `x`, `c` is in no common
block, and the comparator puts `c` before `a`, not `a` before `c`. -/
theorem SymbolOffsetCompare_common_after_other :
    exampleFindCommon exampleA = some exampleCommonX ∧
    exampleFindCommon exampleC = none ∧
    SymbolOffsetCompare exampleFindCommon examplePositionCompare exampleA exampleC
      = false ∧
    SymbolOffsetCompare exampleFindCommon examplePositionCompare exampleC exampleA
      = true := by
  refine ⟨rfl, rfl, rfl, rfl⟩

/-- C12, amended: when x is in a common block and y is in none, the
comparator orders y before x, whatever their offsets and sizes:
`compare(x, y)` is false and `compare(y, x)` is true. -/
theorem SymbolOffsetCompare_common_vs_other
    (FindCommonBlockContaining : Symbol → Option Symbol)
    (sourceCmp : Symbol → Symbol → Bool) (x y xCommon : Symbol)
    (hx : FindCommonBlockContaining x = some xCommon)
    (hy : FindCommonBlockContaining y = none) :
    SymbolOffsetCompare FindCommonBlockContaining sourceCmp x y = false ∧
    SymbolOffsetCompare FindCommonBlockContaining sourceCmp y x = true := by
  simp [SymbolOffsetCompare, hx, hy]

theorem SymbolOffsetCompare_common_vs_other_witness :
    SymbolOffsetCompare exampleFindCommon examplePositionCompare exampleB exampleC
      = false ∧
    SymbolOffsetCompare exampleFindCommon examplePositionCompare exampleC exampleB
      = true :=
  SymbolOffsetCompare_common_vs_other exampleFindCommon examplePositionCompare
    exampleB exampleC exampleCommonX rfl rfl

/-- C13: when x and y are both in common blocks and the comparison of source
positions is asymmetric, the comparator is true if the block of x precedes
that of y, false if the block of y precedes that of x, and otherwise true
exactly when x has the smaller offset, or the same offset and the larger
size. -/
theorem SymbolOffsetCompare_both_common
    (FindCommonBlockContaining : Symbol → Option Symbol)
    (sourceCmp : Symbol → Symbol → Bool) (x y xCommon yCommon : Symbol)
    (hx : FindCommonBlockContaining x = some xCommon)
    (hy : FindCommonBlockContaining y = some yCommon)
    (hasym : ∀ a b, sourceCmp a b = true → sourceCmp b a = false) :
    (sourceCmp xCommon yCommon = true →
      SymbolOffsetCompare FindCommonBlockContaining sourceCmp x y = true) ∧
    (sourceCmp yCommon xCommon = true →
      SymbolOffsetCompare FindCommonBlockContaining sourceCmp x y = false) ∧
    (sourceCmp xCommon yCommon = false → sourceCmp yCommon xCommon = false →
      (SymbolOffsetCompare FindCommonBlockContaining sourceCmp x y = true ↔
        (x.offset < y.offset ∨ (x.offset = y.offset ∧ x.size > y.size)))) := by
  refine ⟨?_, ?_, ?_⟩
  · intro h
    simp [SymbolOffsetCompare, hx, hy, h]
  · intro h
    have h' := hasym _ _ h
    simp [SymbolOffsetCompare, hx, hy, h, h']
  · intro h₁ h₂
    by_cases ho : x.offset = y.offset
    · simp [SymbolOffsetCompare, hx, hy, h₁, h₂, ho]
    · simp [SymbolOffsetCompare, hx, hy, h₁, h₂, ho]

theorem SymbolOffsetCompare_both_common_witness :
    SymbolOffsetCompare exampleFindCommon examplePositionCompare exampleA exampleB
      = true ∧
    SymbolOffsetCompare exampleFindCommon examplePositionCompare exampleB exampleA
      = false := by
  have hasym : ∀ a b, examplePositionCompare a b = true →
      examplePositionCompare b a = false := by
    intro a b h
    simp only [examplePositionCompare, decide_eq_true_eq, decide_eq_false_iff_not] at *
    exact Nat.lt_asymm h
  have hAB := (SymbolOffsetCompare_both_common exampleFindCommon examplePositionCompare
    exampleA exampleB exampleCommonX exampleCommonX rfl rfl hasym).2.2 rfl rfl
  have hBA := (SymbolOffsetCompare_both_common exampleFindCommon examplePositionCompare
    exampleB exampleA exampleCommonX exampleCommonX rfl rfl hasym).2.2 rfl rfl
  refine ⟨hAB.2 (Or.inr ⟨rfl, by decide⟩), ?_⟩
  cases hc : SymbolOffsetCompare exampleFindCommon examplePositionCompare exampleB exampleA
  · rfl
  · exact absurd (hBA.1 hc) (by decide)

/-! ### Final procedures -/

theorem GetFinalForRank.applies_iff (st : SymbolTable)
    (IsElementalProcedure : Symbol → Bool) (rank : Int) (r : SymbolRef)
    (symbol : Symbol) (h : st[r]? = some symbol) :
    DerivedTypeDetails.GetFinalForRank.applies st IsElementalProcedure rank symbol = true ↔
      FinalEligible st IsElementalProcedure rank r := by
  unfold DerivedTypeDetails.GetFinalForRank.applies FinalEligible
  constructor
  · intro ha
    cases hd : symbol.details with
    | Subprogram details =>
      simp only [Symbol.detailsIfSubprogram, hd] at ha
      match hargs : details.dummyArgs with
      | [] => simp [hargs] at ha
      | [none] => simp [hargs] at ha
      | _ :: _ :: _ => simp [hargs] at ha
      | [some arg] =>
        simp only [hargs, List.length_singleton, beq_self_eq_true, if_true,
          List.getElem?_cons_zero] at ha
        cases hl : st[arg]? with
        | none => simp [hl] at ha
        | some argSymbol =>
          simp only [hl] at ha
          cases hod : argSymbol.details with
          | ObjectEntity object =>
            simp only [Symbol.detailsIfObjectEntity, hod, Bool.or_eq_true,
              beq_iff_eq] at ha
            exact ⟨symbol, details, arg, argSymbol, object, h, hd, hargs, hl, hod,
              by tauto⟩
          | _ => simp [Symbol.detailsIfObjectEntity, hod] at ha
    | _ => simp [Symbol.detailsIfSubprogram, hd] at ha
  · rintro ⟨symbol', details, arg, argSymbol, object, h', hd, hargs, hl, hod, hc⟩
    rw [h] at h'
    injection h' with h'
    subst h'
    simp only [Symbol.detailsIfSubprogram, hd, hargs, List.length_singleton,
      beq_self_eq_true, if_true, List.getElem?_cons_zero, hl,
      Symbol.detailsIfObjectEntity, hod, Bool.or_eq_true, beq_iff_eq]
    tauto

theorem GetFinalForRank.loop_cons_of_eligible (st : SymbolTable)
    (IsElementalProcedure : Symbol → Bool) (rank : Int)
    (q : SourceName × SymbolRef) (rest : List (SourceName × SymbolRef))
    (h : FinalEligible st IsElementalProcedure rank q.2) :
    DerivedTypeDetails.GetFinalForRank.loop st IsElementalProcedure rank (q :: rest) =
      some q.2 := by
  obtain ⟨symbol, -, -, -, -, hs, -⟩ := id h
  unfold DerivedTypeDetails.GetFinalForRank.loop
  simp only [hs]
  rw [if_pos ((GetFinalForRank.applies_iff st IsElementalProcedure rank q.2 symbol hs).2 h)]

theorem GetFinalForRank.loop_cons_of_not_eligible (st : SymbolTable)
    (IsElementalProcedure : Symbol → Bool) (rank : Int)
    (q : SourceName × SymbolRef) (rest : List (SourceName × SymbolRef))
    (h : ¬ FinalEligible st IsElementalProcedure rank q.2) :
    DerivedTypeDetails.GetFinalForRank.loop st IsElementalProcedure rank (q :: rest) =
      DerivedTypeDetails.GetFinalForRank.loop st IsElementalProcedure rank rest := by
  rw [DerivedTypeDetails.GetFinalForRank.loop]
  cases hs : st[q.2]? with
  | none => rfl
  | some symbol =>
    simp only
    rw [if_neg (fun ha =>
      h ((GetFinalForRank.applies_iff st IsElementalProcedure rank q.2 symbol hs).1 ha))]

theorem GetFinalForRank.loop_some_iff (st : SymbolTable)
    (IsElementalProcedure : Symbol → Bool) (rank : Int) (r : SymbolRef) :
    ∀ l : List (SourceName × SymbolRef),
      DerivedTypeDetails.GetFinalForRank.loop st IsElementalProcedure rank l = some r ↔
        ∃ pre name post, l = pre ++ (name, r) :: post ∧
          FinalEligible st IsElementalProcedure rank r ∧
          ∀ q ∈ pre, ¬ FinalEligible st IsElementalProcedure rank q.2 := by
  intro l
  induction l with
  | nil =>
    simp [DerivedTypeDetails.GetFinalForRank.loop]
  | cons q rest ih =>
    by_cases hq : FinalEligible st IsElementalProcedure rank q.2
    · rw [GetFinalForRank.loop_cons_of_eligible st _ rank q rest hq]
      constructor
      · intro h
        injection h with h
        subst h
        exact ⟨[], q.1, rest, rfl, hq, by simp⟩
      · rintro ⟨pre, name, post, hl, -, hpre⟩
        cases pre with
        | nil =>
          simp only [List.nil_append, List.cons.injEq] at hl
          rw [hl.1]
        | cons a pre =>
          simp only [List.cons_append, List.cons.injEq] at hl
          exact absurd (hl.1 ▸ hq) (hpre a (List.mem_cons_self _ _))
    · rw [GetFinalForRank.loop_cons_of_not_eligible st _ rank q rest hq, ih]
      constructor
      · rintro ⟨pre, name, post, hl, he, hpre⟩
        refine ⟨q :: pre, name, post, by rw [hl]; rfl, he, ?_⟩
        intro a ha
        rcases List.mem_cons.1 ha with ha | ha
        · exact ha ▸ hq
        · exact hpre a ha
      · rintro ⟨pre, name, post, hl, he, hpre⟩
        cases pre with
        | nil =>
          simp only [List.nil_append, List.cons.injEq] at hl
          exact absurd (by rw [hl.1]; exact he) hq
        | cons a pre =>
          simp only [List.cons_append, List.cons.injEq] at hl
          exact ⟨pre, name, post, hl.2, he,
            fun b hb => hpre b (List.mem_cons_of_mem _ hb)⟩

theorem GetFinalForRank.loop_none_iff (st : SymbolTable)
    (IsElementalProcedure : Symbol → Bool) (rank : Int) :
    ∀ l : List (SourceName × SymbolRef),
      DerivedTypeDetails.GetFinalForRank.loop st IsElementalProcedure rank l = none ↔
        ∀ q ∈ l, ¬ FinalEligible st IsElementalProcedure rank q.2 := by
  intro l
  induction l with
  | nil => simp [DerivedTypeDetails.GetFinalForRank.loop]
  | cons q rest ih =>
    by_cases hq : FinalEligible st IsElementalProcedure rank q.2
    · rw [GetFinalForRank.loop_cons_of_eligible st _ rank q rest hq]
      constructor
      · intro h; cases h
      · intro h; exact absurd hq (h q (List.mem_cons_self _ _))
    · rw [GetFinalForRank.loop_cons_of_not_eligible st _ rank q rest hq, ih]
      constructor
      · intro h a ha
        rcases List.mem_cons.1 ha with ha | ha
        · exact ha ▸ hq
        · exact h a ha
      · intro h a ha
        exact h a (List.mem_cons_of_mem _ ha)

/-- C14: `GetFinalForRank(R)` returns a final procedure exactly when it is the
first one, in the stored order, that is eligible (a Subprogram with exactly
one dummy argument, a non-null ObjectEntity, of declared rank R or
assumed-rank, or of an elemental procedure), whatever follows it; it returns
none exactly when no final procedure is eligible. -/
theorem GetFinalForRank_first_match (st : SymbolTable)
    (IsElementalProcedure : Symbol → Bool) (d : DerivedTypeDetails) (rank : Int) :
    (∀ r, d.GetFinalForRank st IsElementalProcedure rank = some r ↔
      ∃ pre name post, d.finals = pre ++ (name, r) :: post ∧
        FinalEligible st IsElementalProcedure rank r ∧
        ∀ q ∈ pre, ¬ FinalEligible st IsElementalProcedure rank q.2) ∧
    (d.GetFinalForRank st IsElementalProcedure rank = none ↔
      ∀ q ∈ d.finals, ¬ FinalEligible st IsElementalProcedure rank q.2) :=
  ⟨fun r => GetFinalForRank.loop_some_iff st IsElementalProcedure rank r d.finals,
   GetFinalForRank.loop_none_iff st IsElementalProcedure rank d.finals⟩

theorem GetFinalForRank_first_match_witness :
    exampleDerivedType.GetFinalForRank exampleFinalTable (fun _ => false) 2 = some 4 ∧
    FinalEligible exampleFinalTable (fun _ => false) 2 5 ∧
    ∃ pre name post, exampleDerivedType.finals = pre ++ (name, 4) :: post ∧
      FinalEligible exampleFinalTable (fun _ => false) 2 4 ∧
      ∀ q ∈ pre, ¬ FinalEligible exampleFinalTable (fun _ => false) 2 q.2 :=
  ⟨rfl, ⟨_, _, 2, _, _, rfl, rfl, rfl, rfl, rfl, Or.inl rfl⟩,
   ((GetFinalForRank_first_match exampleFinalTable (fun _ => false)
      exampleDerivedType 2).1 4).1 rfl⟩

/-! ### Components of a derived type -/

theorem add_component_of_parent (d : DerivedTypeDetails) (s : Symbol)
    (hp : s.test Flag.ParentComp = true) (hn : d.componentNames ≠ []) :
    d.add_component s = .error "CHECK(componentNames_.empty()) failed" := by
  have he : d.componentNames.isEmpty = false := by
    cases hc : d.componentNames with
    | nil => exact absurd hc hn
    | cons a l => rfl
  simp [DerivedTypeDetails.add_component, hp, CHECK, he, bind, Except.bind]

theorem add_component_of_not_parent (d : DerivedTypeDetails) (s : Symbol)
    (h : ¬ (s.test Flag.ParentComp = true ∧ d.componentNames ≠ [])) :
    d.add_component s =
      .ok { d with componentNames := d.componentNames ++ [s.name] } := by
  by_cases hp : s.test Flag.ParentComp = true
  · have hn : d.componentNames = [] := by
      by_contra hne
      exact h ⟨hp, hne⟩
    simp [DerivedTypeDetails.add_component, hp, CHECK, hn, bind, Except.bind, pure,
      Except.pure]
  · simp [DerivedTypeDetails.add_component, hp, bind, Except.bind, pure, Except.pure]

theorem addComponents_names :
    ∀ (syms : List Symbol) (d d' : DerivedTypeDetails),
      d.addComponents syms = .ok d' →
      d'.componentNames = d.componentNames ++ syms.map (fun s => s.name) ∧
      ∀ (i : Nat) (s : Symbol), syms[i]? = some s → s.test Flag.ParentComp = true →
        i = 0 ∧ d.componentNames = [] := by
  intro syms
  induction syms with
  | nil =>
    intro d d' h
    simp only [DerivedTypeDetails.addComponents] at h
    injection h with h
    subst h
    simp
  | cons a rest ih =>
    intro d d' h
    by_cases hc : a.test Flag.ParentComp = true ∧ d.componentNames ≠ []
    · simp [DerivedTypeDetails.addComponents, add_component_of_parent d a hc.1 hc.2] at h
    · simp only [DerivedTypeDetails.addComponents, add_component_of_not_parent d a hc] at h
      obtain ⟨hn, hi⟩ := ih _ d' h
      refine ⟨by simpa using hn, ?_⟩
      intro i s hs hp
      cases i with
      | zero =>
        simp only [List.getElem?_cons_zero, Option.some.injEq] at hs
        subst hs
        refine ⟨rfl, ?_⟩
        by_contra hne
        exact hc ⟨hp, hne⟩
      | succ j =>
        simp only [List.getElem?_cons_succ] at hs
        have := (hi j s hs hp).2
        simp at this

/-- C15: `add_component(s)` fails exactly when s has the ParentComp flag and
the list of component names is not empty; otherwise it appends the name of s
and leaves the earlier names in place.  Hence after a sequence of successful
calls the names are stored in the order of the calls, and a symbol with the
ParentComp flag can only have been the first one recorded in an empty list. -/
theorem add_component_spec (d : DerivedTypeDetails) (s : Symbol) :
    ((∃ e, d.add_component s = .error e) ↔
      (s.test Flag.ParentComp = true ∧ d.componentNames ≠ [])) ∧
    (¬ (s.test Flag.ParentComp = true ∧ d.componentNames ≠ []) →
      d.add_component s =
        .ok { d with componentNames := d.componentNames ++ [s.name] }) ∧
    (∀ (syms : List Symbol) (d' : DerivedTypeDetails),
      d.addComponents syms = .ok d' →
      d'.componentNames = d.componentNames ++ syms.map (fun s => s.name) ∧
      ∀ (i : Nat) (s : Symbol), syms[i]? = some s → s.test Flag.ParentComp = true →
        i = 0 ∧ d.componentNames = []) := by
  refine ⟨?_, add_component_of_not_parent d s, fun syms d' => addComponents_names syms d d'⟩
  constructor
  · rintro ⟨e, he⟩
    by_contra hc
    rw [add_component_of_not_parent d s hc] at he
    cases he
  · rintro ⟨hp, hn⟩
    exact ⟨_, add_component_of_parent d s hp hn⟩

theorem add_component_spec_witness :
    DerivedTypeDetails.addComponents {}
        [ { owner := 4, name := ⟨50, "base"⟩, flags := [.ParentComp] },
          { owner := 4, name := ⟨60, "n"⟩ } ] =
      .ok { componentNames := [⟨50, "base"⟩, ⟨60, "n"⟩] } ∧
    (∃ e, DerivedTypeDetails.add_component { componentNames := [⟨50, "base"⟩] }
      { owner := 4, name := ⟨70, "other"⟩, flags := [.ParentComp] } = .error e) :=
  ⟨rfl, (add_component_spec _ _).1.2 ⟨rfl, by simp⟩⟩

/-! ### Replacing the name of a symbol -/

theorem ReplaceName_eq (s : Symbol) (n : SourceName) :
    s.ReplaceName n =
      if n.chars = s.name.chars then .ok { s with name := n }
      else .error "CHECK(name == name_) failed" := by
  by_cases h : n.chars = s.name.chars
  · simp [Symbol.ReplaceName, CHECK, SourceName.sameChars, h, bind, Except.bind, pure,
      Except.pure]
  · simp [Symbol.ReplaceName, CHECK, SourceName.sameChars, h, bind, Except.bind]

theorem replaceNames_chars :
    ∀ (ns : List SourceName) (s s' : Symbol),
      s.replaceNames ns = .ok s' → s'.name.chars = s.name.chars := by
  intro ns
  induction ns with
  | nil =>
    intro s s' h
    simp only [Symbol.replaceNames] at h
    injection h with h
    rw [h]
  | cons n rest ih =>
    intro s s' h
    by_cases hc : n.chars = s.name.chars
    · simp only [Symbol.replaceNames, ReplaceName_eq, if_pos hc] at h
      rw [ih _ s' h]
      exact hc
    · simp [Symbol.replaceNames, ReplaceName_eq, if_neg hc] at h

/-- C16: `ReplaceName(n)` succeeds exactly when n has the characters of the
current name, and then only the name is replaced by n; it fails otherwise.
Hence after a sequence of successful calls the characters of the name are
those of the original name. -/
theorem ReplaceName_spec (s : Symbol) (n : SourceName) :
    ((∃ s', s.ReplaceName n = .ok s') ↔ n.chars = s.name.chars) ∧
    ((∃ e, s.ReplaceName n = .error e) ↔ n.chars ≠ s.name.chars) ∧
    (∀ s', s.ReplaceName n = .ok s' → s' = { s with name := n }) ∧
    (∀ (ns : List SourceName) (s' : Symbol),
      s.replaceNames ns = .ok s' → s'.name.chars = s.name.chars) := by
  refine ⟨?_, ?_, ?_, fun ns s' => replaceNames_chars ns s s'⟩
  · rw [ReplaceName_eq]
    by_cases hc : n.chars = s.name.chars <;> simp [hc]
  · rw [ReplaceName_eq]
    by_cases hc : n.chars = s.name.chars <;> simp [hc]
  · intro s' h
    rw [ReplaceName_eq] at h
    by_cases hc : n.chars = s.name.chars
    · rw [if_pos hc] at h
      injection h with h
      exact h.symm
    · rw [if_neg hc] at h
      cases h

theorem ReplaceName_spec_witness :
    (exampleSymbol .Unknown).ReplaceName ⟨90, "f"⟩ =
      .ok { exampleSymbol .Unknown with name := ⟨90, "f"⟩ } ∧
    (∃ e, (exampleSymbol .Unknown).ReplaceName ⟨90, "g"⟩ = .error e) :=
  ⟨rfl, (ReplaceName_spec _ _).2.1.2 (by decide)⟩

/-! ### Binding names -/

theorem updateBindName?_eq_none (f : WithBindName → WithBindName) (d : Details)
    (h : d.kind ∉ kindsWithBindName) : d.updateBindName? f = none := by
  cases d <;> simp_all [Details.updateBindName?, Details.kind, kindsWithBindName]

theorem updateBindName?_withBindName (f : WithBindName → WithBindName) (d : Details)
    (h : d.kind ∈ kindsWithBindName) :
    ∃ d' w, d.updateBindName? f = some d' ∧ d.withBindName? = some w ∧
      d'.withBindName? = some (f w) ∧ d'.kind = d.kind := by
  cases d <;>
    simp_all [Details.updateBindName?, Details.withBindName?, Details.kind,
      kindsWithBindName]

theorem withBindName?_eq_none (d : Details) (h : d.kind ∉ kindsWithBindName) :
    d.withBindName? = none := by
  cases d <;> simp_all [Details.withBindName?, Details.kind, kindsWithBindName]

/-- C17: on a symbol whose kind of details does not derive from `WithBindName`
each of `SetBindName`, `SetIsExplicitBindName` and `SetIsCDefined` fails; on a
symbol whose kind does, each succeeds and the value is stored in the base. -/
theorem SetBindName_capability (s : Symbol) (name : String) (yes : Bool) :
    (s.details.kind ∉ kindsWithBindName →
      (∃ e, s.SetBindName name = .error e) ∧
      (∃ e, s.SetIsExplicitBindName yes = .error e) ∧
      (∃ e, s.SetIsCDefined yes = .error e)) ∧
    (s.details.kind ∈ kindsWithBindName →
      (∃ s' w, s.SetBindName name = .ok s' ∧ s'.details.kind = s.details.kind ∧
        s'.details.withBindName? = some w ∧ w.bindName = some name) ∧
      (∃ s' w, s.SetIsExplicitBindName yes = .ok s' ∧
        s'.details.kind = s.details.kind ∧
        s'.details.withBindName? = some w ∧ w.isExplicitBindName = yes) ∧
      (∃ s' w, s.SetIsCDefined yes = .ok s' ∧ s'.details.kind = s.details.kind ∧
        s'.details.withBindName? = some w ∧ w.isCDefined = yes)) := by
  constructor
  · intro h
    simp [Symbol.SetBindName, Symbol.SetIsExplicitBindName, Symbol.SetIsCDefined,
      updateBindName?_eq_none _ _ h]
  · intro h
    refine ⟨?_, ?_, ?_⟩
    · obtain ⟨d', w, h1, -, h3, h4⟩ := updateBindName?_withBindName
        (fun x => { x with bindName := some name }) _ h
      exact ⟨{ s with details := d' }, _, by simp [Symbol.SetBindName, h1], h4, h3, rfl⟩
    · obtain ⟨d', w, h1, -, h3, h4⟩ := updateBindName?_withBindName
        (fun x => { x with isExplicitBindName := yes }) _ h
      exact ⟨{ s with details := d' }, _, by simp [Symbol.SetIsExplicitBindName, h1],
        h4, h3, rfl⟩
    · obtain ⟨d', w, h1, -, h3, h4⟩ := updateBindName?_withBindName
        (fun x => { x with isCDefined := yes }) _ h
      exact ⟨{ s with details := d' }, _, by simp [Symbol.SetIsCDefined, h1], h4, h3, rfl⟩

theorem SetBindName_capability_witness :
    (∃ e, (exampleSymbol (.Module {})).SetBindName "f_c" = .error e) ∧
    (exampleSymbol (.Subprogram {})).SetBindName "f_c" =
      .ok (exampleSymbol (.Subprogram { bind := { bindName := some "f_c" } })) :=
  ⟨((SetBindName_capability (exampleSymbol (.Module {})) "f_c" true).1 (by decide)).1,
   rfl⟩

/-- C18 as stated fails: on a symbol with Module details, which has no
binding-name capability, `GetBindName` returns the null pointer and
`GetIsExplicitBindName` returns false; neither fails. -/
theorem GetBindName_without_capability_returns :
    (exampleSymbol (.Module {})).details.kind ∉ kindsWithBindName ∧
    (exampleSymbol (.Module {})).GetBindName = .ok none ∧
    (exampleSymbol (.Module {})).GetIsExplicitBindName = .ok false := by
  refine ⟨by decide, rfl, rfl⟩

/-- C18, amended: on a symbol whose kind of details does not derive from
`WithBindName`, `GetBindName` returns no binding name (the null pointer) and
`GetIsExplicitBindName` returns false; neither fails. -/
theorem GetBindName_without_capability (s : Symbol)
    (h : s.details.kind ∉ kindsWithBindName) :
    s.GetBindName = .ok none ∧ s.GetIsExplicitBindName = .ok false := by
  simp [Symbol.GetBindName, Symbol.GetIsExplicitBindName, withBindName?_eq_none _ h]

theorem GetBindName_without_capability_witness :
    (exampleSymbol (.Generic {})).GetBindName = .ok none ∧
    (exampleSymbol (.Generic {})).GetIsExplicitBindName = .ok false :=
  GetBindName_without_capability (exampleSymbol (.Generic {})) (by decide)

/-! ### The derived type and the two lists of a generic -/

theorem CopyFrom.error_of_not_checks (st : SymbolTable) (G S : GenericDetails)
    (h : ¬ (G.specificProcs.length = G.bindingNames.length ∧
      S.specificProcs.length = S.bindingNames.length ∧
      (S.derivedType = none ∨ G.derivedType = none ∨ G.derivedType = S.derivedType))) :
    ∃ e, G.CopyFrom st S = .error e := by
  cases hc : G.CopyFrom st S with
  | error e => exact ⟨e, rfl⟩
  | ok G' =>
    obtain ⟨h1, h2, h3, -⟩ := (CopyFrom.eq_ok_iff st G S G').1 hc
    exact absurd ⟨h1, h2, h3⟩ h

theorem set_derivedType_eq (G : GenericDetails) (t : SymbolRef) :
    G.set_derivedType t =
      if G.derivedType = none then .ok { G with derivedType := some t }
      else .error "CHECK(!derivedType_) failed" := by
  cases h : G.derivedType <;>
    simp [GenericDetails.set_derivedType, CHECK, h, bind, Except.bind, pure, Except.pure]

/-- C19: `G.CopyFrom(S)` fails when S and G both have a derived type and the
two differ, and `set_derivedType` fails when a derived type is already set
(and succeeds when none is).  When `CopyFrom` completes, the derived type of
the result is that of S if S has one, and that of G before the call
otherwise. -/
theorem CopyFrom_derivedType (st : SymbolTable) (G S : GenericDetails) :
    (∀ a b, S.derivedType = some a → G.derivedType = some b → b ≠ a →
      ∃ e, G.CopyFrom st S = .error e) ∧
    (∀ t b, G.derivedType = some b → ∃ e, G.set_derivedType t = .error e) ∧
    (∀ t, G.derivedType = none →
      G.set_derivedType t = .ok { G with derivedType := some t }) ∧
    (∀ G', G.CopyFrom st S = .ok G' →
      G'.derivedType = if S.derivedType.isSome then S.derivedType else G.derivedType) := by
  refine ⟨?_, ?_, ?_, ?_⟩
  · intro a b hS hG hne
    apply CopyFrom.error_of_not_checks
    rintro ⟨-, -, h | h | h⟩
    · rw [hS] at h; cases h
    · rw [hG] at h; cases h
    · rw [hS, hG] at h
      injection h with h
      exact hne h
  · intro t b hG
    rw [set_derivedType_eq, hG]
    exact ⟨_, rfl⟩
  · intro t hG
    rw [set_derivedType_eq, if_pos hG]
  · intro G' h
    obtain ⟨-, -, -, rfl⟩ := (CopyFrom.eq_ok_iff st G S G').1 h
    exact (CopyFrom.loop_fields st _ _).2.1

theorem CopyFrom_derivedType_witness :
    (∃ e, GenericDetails.CopyFrom exampleTable
      { exampleGeneric with derivedType := some 8 } exampleSource = .error e) ∧
    (∃ e, GenericDetails.set_derivedType { exampleGeneric with derivedType := some 7 } 7
      = .error e) :=
  ⟨(CopyFrom_derivedType exampleTable { exampleGeneric with derivedType := some 8 }
      exampleSource).1 7 8 rfl rfl (by decide),
   (CopyFrom_derivedType exampleTable { exampleGeneric with derivedType := some 7 }
      exampleSource).2.1 7 7 rfl⟩

theorem CopyFrom.loop_aligned (st : SymbolTable) (zs : List (SymbolRef × SourceName)) :
    ∀ g : GenericDetails, ∃ app : List (SymbolRef × SourceName), app.Sublist zs ∧
      (GenericDetails.CopyFrom.loop st g zs).specificProcs =
        g.specificProcs ++ app.map Prod.fst ∧
      (GenericDetails.CopyFrom.loop st g zs).bindingNames =
        g.bindingNames ++ app.map Prod.snd := by
  induction zs with
  | nil => intro g; exact ⟨[], List.Sublist.refl _, by simp [GenericDetails.CopyFrom.loop]⟩
  | cons z zs ih =>
    intro g
    rw [CopyFrom.loop_cons]
    by_cases hp : GetUltimate st z.1 ∈ g.specificProcs.map (GetUltimate st)
    · rw [CopyFrom.step_of_mem st g z.1 z.2 hp]
      obtain ⟨app, hsub, h1, h2⟩ := ih g
      exact ⟨app, hsub.trans (List.sublist_cons_self z zs), h1, h2⟩
    · rw [CopyFrom.step_of_not_mem st g z.1 z.2 hp]
      obtain ⟨app, hsub, h1, h2⟩ := ih { g with
        specificProcs := g.specificProcs ++ [z.1]
        bindingNames := g.bindingNames ++ [z.2] }
      refine ⟨z :: app, hsub.cons₂ z, ?_, ?_⟩
      · rw [h1]; simp
      · rw [h2]; simp

/-- C20: `AddSpecificProc` appends the procedure and its binding name at the
same index, and a `CopyFrom` that completes appends pairs of a candidate of
the source and the binding name at the same index of the source, in the
order of the source; both keep the two lists of the same length, with what
was there before as a prefix.  `CopyFrom` fails when the two lists of the
target or of the source differ in length. -/
theorem lists_stay_aligned (st : SymbolTable) (G S : GenericDetails)
    (proc : SymbolRef) (name : SourceName) :
    ((G.AddSpecificProc proc name).specificProcs = G.specificProcs ++ [proc] ∧
      (G.AddSpecificProc proc name).bindingNames = G.bindingNames ++ [name] ∧
      (G.specificProcs.length = G.bindingNames.length →
        (G.AddSpecificProc proc name).specificProcs.length =
          (G.AddSpecificProc proc name).bindingNames.length ∧
        (G.AddSpecificProc proc name).specificProcs[G.specificProcs.length]? = some proc ∧
        (G.AddSpecificProc proc name).bindingNames[G.specificProcs.length]? = some name)) ∧
    (∀ G', G.CopyFrom st S = .ok G' →
      G.specificProcs.length = G.bindingNames.length ∧
      G'.specificProcs.length = G'.bindingNames.length ∧
      (∃ app : List (SymbolRef × SourceName),
        app.Sublist (S.specificProcs.zip S.bindingNames) ∧
        G'.specificProcs = G.specificProcs ++ app.map Prod.fst ∧
        G'.bindingNames = G.bindingNames ++ app.map Prod.snd) ∧
      (∀ (j : Nat) (p : SymbolRef) (n : SourceName), G.specificProcs.length ≤ j →
        G'.specificProcs[j]? = some p → G'.bindingNames[j]? = some n →
        ∃ i : Nat, S.specificProcs[i]? = some p ∧ S.bindingNames[i]? = some n)) ∧
    ((G.specificProcs.length ≠ G.bindingNames.length ∨
        S.specificProcs.length ≠ S.bindingNames.length) →
      ∃ e, G.CopyFrom st S = .error e) := by
  refine ⟨⟨rfl, rfl, ?_⟩, ?_, ?_⟩
  · intro hlen
    refine ⟨by simp [GenericDetails.AddSpecificProc, hlen], ?_, ?_⟩
    · simp [GenericDetails.AddSpecificProc]
    · simp [GenericDetails.AddSpecificProc, hlen]
  · intro G' h
    obtain ⟨hG, -, -, rfl⟩ := (CopyFrom.eq_ok_iff st G S G').1 h
    obtain ⟨app, hsub, h1, h2⟩ := CopyFrom.loop_aligned st
      (S.specificProcs.zip S.bindingNames)
      { G with kind := S.kind
               derivedType := if S.derivedType.isSome then S.derivedType
                              else G.derivedType }
    simp only at h1 h2
    refine ⟨hG, (CopyFrom.loop_fields st _ _).2.2.2.2 hG, ⟨app, hsub, h1, h2⟩, ?_⟩
    intro j p n hj hp hn
    rw [h1, List.getElem?_append_right hj, List.getElem?_map] at hp
    rw [h2, List.getElem?_append_right (hG ▸ hj), List.getElem?_map, ← hG] at hn
    obtain ⟨a, ha, hap⟩ := Option.map_eq_some'.1 hp
    obtain ⟨b, hb, hbn⟩ := Option.map_eq_some'.1 hn
    rw [ha] at hb
    injection hb with hb
    subst hb
    have hmem : a ∈ S.specificProcs.zip S.bindingNames :=
      hsub.subset (List.mem_iff_getElem?.2 ⟨_, ha⟩)
    obtain ⟨i, hi⟩ := List.mem_iff_getElem?.1 hmem
    obtain ⟨hi1, hi2⟩ := List.getElem?_zip_eq_some.1 hi
    exact ⟨i, by rw [hi1, hap], by rw [hi2, hbn]⟩
  · intro h
    apply CopyFrom.error_of_not_checks
    rintro ⟨h1, h2, -⟩
    rcases h with h | h
    · exact h h1
    · exact h h2

theorem lists_stay_aligned_witness :
    (exampleGeneric.AddSpecificProc 3 ⟨9, "g"⟩).specificProcs = [1, 3] ∧
    (exampleGeneric.AddSpecificProc 3 ⟨9, "g"⟩).bindingNames =
      [⟨20, "f"⟩, ⟨9, "g"⟩] ∧
    (∃ e, GenericDetails.CopyFrom exampleTable
      { exampleGeneric with bindingNames := [] } exampleSource = .error e) :=
  ⟨rfl, rfl,
   (lists_stay_aligned exampleTable { exampleGeneric with bindingNames := [] }
      exampleSource 3 ⟨9, "g"⟩).2.2 (Or.inl (by decide))⟩

/-! ### Refinement is monotonic -/

theorem Refines.canReplace {a b : Symbol} (h : a.Refines b) :
    ∃ P : Details, a.CanReplaceDetails P = true ∧ b = { a with details := P } := by
  obtain ⟨P, hP⟩ := h
  unfold Symbol.set_details at hP
  by_cases hc : a.CanReplaceDetails P = true
  · rw [if_pos hc] at hP
    injection hP with hP
    exact ⟨P, hc, hP.symm⟩
  · rw [if_neg hc] at hP
    cases hP

theorem CanReplaceDetails.kindChange_of_ne (s : Symbol) (P : Details)
    (h : s.CanReplaceDetails P = true) (hne : s.details.kind ≠ P.kind) :
    kindChange s.details.kind P.kind = true := by
  obtain ⟨o, n, a, f, sc, off, sz, d⟩ := s
  cases d <;> cases P <;>
    simp_all [Symbol.CanReplaceDetails, Symbol.has, Details.kind, kindChange,
      Symbol.detailsIfDerivedType, Symbol.detailsIfUse]

theorem kindChange.rank_lt (c p : Kind) (h : kindChange c p = true) (hne : c ≠ p) :
    kindRank c < kindRank p := by
  cases c <;> cases p <;> simp_all [kindChange, kindRank]

theorem kindStep.rank_le {c p : Kind} (h : kindStep c p) :
    kindRank c ≤ kindRank p ∧ (c ≠ p → kindRank c < kindRank p) := by
  obtain ⟨a, b, hab, rfl, rfl⟩ := h
  obtain ⟨P, hP, rfl⟩ := Refines.canReplace hab
  by_cases hne : a.details.kind = P.kind
  · simp only
    rw [hne]
    exact ⟨le_refl _, fun h => absurd rfl h⟩
  · have hlt := kindChange.rank_lt _ _ (CanReplaceDetails.kindChange_of_ne a P hP hne) hne
    exact ⟨le_of_lt hlt, fun _ => hlt⟩

theorem Refines.kindRank_mono {a c : Symbol} (h : Relation.ReflTransGen Symbol.Refines a c) :
    kindRank a.details.kind ≤ kindRank c.details.kind := by
  induction h with
  | refl => exact le_refl _
  | tail _ hbc ih => exact le_trans ih (kindStep.rank_le ⟨_, _, hbc, rfl, rfl⟩).1

theorem kindStep.transGen_rank {c p : Kind} (h : Relation.TransGen kindStep c p) :
    kindRank c ≤ kindRank p ∧ (c ≠ p → kindRank c < kindRank p) := by
  induction h with
  | single h => exact kindStep.rank_le h
  | @tail b d _ hbc ih =>
    obtain ⟨h1, h2⟩ := kindStep.rank_le hbc
    refine ⟨le_trans ih.1 h1, fun hne => ?_⟩
    by_cases hcb : c = b
    · subst hcb
      exact h2 hne
    · exact lt_of_lt_of_le (ih.2 hcb) h1

/-- C21: along successful calls of `set_details` a symbol never returns to a
kind it has left; a symbol that is not Unknown is never Unknown again; the
kind changes in one call are exactly Unknown to any kind, Entity to
ObjectEntity, ProcEntity or Subprogram, SubprogramName to Subprogram, and any
kind to UseError; and the relation on kinds has no cycle through two
different kinds. -/
theorem set_details_monotonic :
    (∀ a b c : Symbol, a.Refines b → a.details.kind ≠ b.details.kind →
      Relation.ReflTransGen Symbol.Refines b c → c.details.kind ≠ a.details.kind) ∧
    (∀ a c : Symbol, a.details.kind ≠ Kind.Unknown →
      Relation.ReflTransGen Symbol.Refines a c → c.details.kind ≠ Kind.Unknown) ∧
    (∀ c p : Kind, c ≠ p → (kindStep c p ↔ kindChange c p = true)) ∧
    (∀ c p : Kind, Relation.TransGen kindStep c p → Relation.TransGen kindStep p c →
      c = p) := by
  refine ⟨?_, ?_, ?_, ?_⟩
  · intro a b c hab hne hbc heq
    have h1 := (kindStep.rank_le ⟨a, b, hab, rfl, rfl⟩).2 hne
    have h2 := Refines.kindRank_mono hbc
    rw [heq] at h2
    omega
  · intro a c ha hac heq
    have h := Refines.kindRank_mono hac
    rw [heq] at h
    have h0 : kindRank a.details.kind = 0 := Nat.le_zero.1 h
    apply ha
    revert h0
    cases a.details.kind <;> simp [kindRank]
  · intro c p hne
    constructor
    · rintro ⟨a, b, hab, rfl, rfl⟩
      obtain ⟨P, hP, rfl⟩ := Refines.canReplace hab
      exact CanReplaceDetails.kindChange_of_ne a P hP hne
    · intro h
      refine ⟨exampleSymbol (Details.sample c),
        exampleSymbol (Details.sample p), ⟨Details.sample p, ?_⟩, ?_, ?_⟩
      · cases c <;> cases p <;> first | rfl | (exact absurd h (by decide))
      · cases c <;> rfl
      · cases p <;> rfl
  · intro c p hcp hpc
    by_contra hne
    have h1 := (kindStep.transGen_rank hcp).2 hne
    have h2 := (kindStep.transGen_rank hpc).1
    omega

theorem set_details_monotonic_witness :
    (exampleSymbol (.ObjectEntity {})).details.kind ≠
      (exampleSymbol (.Entity {})).details.kind :=
  set_details_monotonic.1 (exampleSymbol (.Entity {})) (exampleSymbol (.ObjectEntity {}))
    (exampleSymbol (.ObjectEntity {})) ⟨.ObjectEntity {}, rfl⟩ (by decide)
    Relation.ReflTransGen.refl

/-- C24: a symbol whose details are not Unknown accepts proposed HostAssoc
details exactly when its details kind is HostAssoc, and proposed
UserReduction details exactly when its details kind is UserReduction. -/
theorem CanReplaceDetails_HostAssoc_UserReduction (s : Symbol)
    (h : s.details.kind ≠ Kind.Unknown) :
    (∀ P : HostAssocDetails,
      s.CanReplaceDetails (.HostAssoc P) = true ↔ s.details.kind = Kind.HostAssoc) ∧
    (∀ P : UserReductionDetails,
      s.CanReplaceDetails (.UserReduction P) = true ↔
        s.details.kind = Kind.UserReduction) := by
  obtain ⟨o, n, a, f, sc, off, sz, d⟩ := s
  constructor <;> intro P <;> cases d <;>
    simp_all [Symbol.CanReplaceDetails, Symbol.has, Details.kind]

theorem CanReplaceDetails_HostAssoc_UserReduction_witness :
    (exampleSymbol (.HostAssoc { symbol := 0 })).CanReplaceDetails
      (.HostAssoc { symbol := 1 }) = true ∧
    ¬ (exampleSymbol (.HostAssoc { symbol := 0 })).CanReplaceDetails
      (.UserReduction {}) = true :=
  ⟨((CanReplaceDetails_HostAssoc_UserReduction
      (exampleSymbol (.HostAssoc { symbol := 0 })) (by decide)).1 ⟨1⟩).2 rfl,
   fun h => absurd
     (((CanReplaceDetails_HostAssoc_UserReduction
        (exampleSymbol (.HostAssoc { symbol := 0 })) (by decide)).2 {}).1 h)
     (by decide)⟩

theorem CanReplaceDetails.of_UseError (a : Symbol) (ha : a.details.kind = Kind.UseError)
    (P : Details) : a.CanReplaceDetails P = true ↔ P.kind = Kind.UseError := by
  obtain ⟨o, n, at', f, sc, off, sz, d⟩ := a
  cases d <;> simp [Details.kind] at ha
  cases P <;>
    simp [Symbol.CanReplaceDetails, Symbol.has, Details.kind,
      Symbol.detailsIfDerivedType, Symbol.detailsIfUse]

/-- C30: a symbol with UseError details accepts proposed details exactly when
they are UseError details, so after any sequence of successful calls of
`set_details` it still has UseError details. -/
theorem UseError_absorbing (s : Symbol) (h : s.details.kind = Kind.UseError) :
    (∀ P : Details, s.CanReplaceDetails P = true ↔ P.kind = Kind.UseError) ∧
    (∀ c : Symbol, Relation.ReflTransGen Symbol.Refines s c →
      c.details.kind = Kind.UseError) := by
  have step := CanReplaceDetails.of_UseError
  refine ⟨step s h, ?_⟩
  intro c hc
  induction hc with
  | refl => exact h
  | tail _ hbc ih =>
    obtain ⟨P, hP, rfl⟩ := Refines.canReplace hbc
    exact (step _ ih P).1 hP

theorem UseError_absorbing_witness :
    (exampleSymbol (.UseError {})).CanReplaceDetails (.UseError {}) = true ∧
    ¬ (exampleSymbol (.UseError {})).CanReplaceDetails (.Subprogram {}) = true :=
  ⟨((UseError_absorbing (exampleSymbol (.UseError {})) rfl).1 (.UseError {})).2 rfl,
   fun h => absurd
     (((UseError_absorbing (exampleSymbol (.UseError {})) rfl).1 (.Subprogram {})).1 h)
     (by decide)⟩

/-! ### The order of `SymbolOffsetCompare` -/

/-- C22: the code at two symbols outside any common block with the same
offset and the same size: the name of `c` precedes that of `d`, and the
comparator is false both ways, since the comparison of the names is never
reached. -/
theorem SymbolOffsetCompare_no_position_fallback :
    exampleFindCommon exampleC = none ∧ exampleFindCommon exampleD = none ∧
    exampleC.offset = exampleD.offset ∧ exampleC.size = exampleD.size ∧
    examplePositionCompare exampleC exampleD = true ∧
    SymbolOffsetCompare exampleFindCommon examplePositionCompare exampleC exampleD
      = false := by
  refine ⟨rfl, rfl, rfl, rfl, by decide, rfl⟩

/-- C23: the code at two different symbols that it leaves unordered: `c` and
`d` have the same offset and size, and the comparator is false both ways. -/
theorem SymbolOffsetCompare_not_total :
    exampleC ≠ exampleD ∧
    SymbolOffsetCompare exampleFindCommon examplePositionCompare exampleC exampleD
      = false ∧
    SymbolOffsetCompare exampleFindCommon examplePositionCompare exampleD exampleC
      = false := by
  refine ⟨by decide, rfl, rfl⟩

theorem SymbolOffsetCompare.iff (F : Symbol → Option Symbol)
    (s : Symbol → Symbol → Bool) (x y : Symbol) :
    SymbolOffsetCompare F s x y = true ↔
      match F x, F y with
      | some xc, some yc =>
        s xc yc = true ∨ (¬ s xc yc = true ∧ ¬ s yc xc = true ∧
          (x.offset < y.offset ∨ (x.offset = y.offset ∧ y.size < x.size)))
      | some _, none => False
      | none, some _ => True
      | none, none => x.offset < y.offset ∨ (x.offset = y.offset ∧ y.size < x.size) := by
  unfold SymbolOffsetCompare
  cases hx : F x with
  | none =>
    cases hy : F y with
    | none => by_cases ho : x.offset = y.offset <;> simp [ho]
    | some yc => simp
  | some xc =>
    cases hy : F y with
    | none => simp
    | some yc =>
      simp only
      cases h1 : s xc yc <;> cases h2 : s yc xc <;>
        by_cases ho : x.offset = y.offset <;> simp [ho]

/-- C29: when the comparison of source positions is irreflexive and
transitive, and total on the common blocks, the comparator is a strict weak
ordering: irreflexive, asymmetric and transitive, with a transitive
incomparability. -/
theorem SymbolOffsetCompare_strict_weak
    (F : Symbol → Option Symbol) (s : Symbol → Symbol → Bool)
    (hirr : ∀ a, s a a = false)
    (htrans : ∀ a b c, s a b = true → s b c = true → s a c = true)
    (htotal : ∀ x y a b, F x = some a → F y = some b →
      s a b = false → s b a = false → a = b) :
    (∀ x, SymbolOffsetCompare F s x x = false) ∧
    (∀ x y, SymbolOffsetCompare F s x y = true → SymbolOffsetCompare F s y x = false) ∧
    (∀ x y z, SymbolOffsetCompare F s x y = true → SymbolOffsetCompare F s y z = true →
      SymbolOffsetCompare F s x z = true) ∧
    (∀ x y z, SymbolOffsetCompare F s x y = false → SymbolOffsetCompare F s y x = false →
      SymbolOffsetCompare F s y z = false → SymbolOffsetCompare F s z y = false →
      SymbolOffsetCompare F s x z = false ∧ SymbolOffsetCompare F s z x = false) := by
  have hn : ∀ a, ¬ s a a = true := fun a h => by rw [hirr] at h; cases h
  have hasym : ∀ a b, s a b = true → ¬ s b a = true :=
    fun a b hab hba => hn a (htrans a b a hab hba)
  have htot : ∀ x y a b, F x = some a → F y = some b →
      ¬ s a b = true → ¬ s b a = true → a = b :=
    fun x y a b hx hy h1 h2 =>
      htotal x y a b hx hy (Bool.eq_false_iff.2 h1) (Bool.eq_false_iff.2 h2)
  simp only [Bool.eq_false_iff, ne_eq, SymbolOffsetCompare.iff]
  refine ⟨?_, ?_, ?_, ?_⟩
  · intro x
    cases hx : F x
    · simp
    · simp [hn]
  · intro x y
    cases hx : F x <;> cases hy : F y <;> simp only
    · omega
    · simp
    · simp
    · rename_i xc yc
      rintro (h | ⟨h1, h2, h3⟩)
      · have h' := hasym _ _ h
        rintro (g | ⟨-, g2, -⟩)
        · exact h' g
        · exact g2 h
      · rintro (g | ⟨-, -, g3⟩)
        · exact h2 g
        · omega
  · intro x y z
    cases hx : F x <;> cases hy : F y <;> cases hz : F z <;> simp only
    · omega
    · simp
    · simp
    · simp
    · simp
    · simp
    · simp
    · rename_i xc yc zc
      rintro (h | ⟨h1, h2, h3⟩) (h' | ⟨h1', h2', h3'⟩)
      · exact Or.inl (htrans _ _ _ h h')
      · have e := htot y z yc zc hy hz h1' h2'
        subst e
        exact Or.inl h
      · have e := htot x y xc yc hx hy h1 h2
        subst e
        exact Or.inl h'
      · have e := htot x y xc yc hx hy h1 h2
        subst e
        have e := htot y z xc zc hy hz h1' h2'
        subst e
        right
        refine ⟨h1, h1, ?_⟩
        omega
  · intro x y z
    cases hx : F x <;> cases hy : F y <;> cases hz : F z <;> simp only
    · omega
    · simp
    · simp
    · simp
    · simp
    · simp
    · simp
    · rename_i xc yc zc
      intro h1 h2 h3 h4
      have e := htot x y xc yc hx hy (fun h => h1 (Or.inl h)) (fun h => h2 (Or.inl h))
      subst e
      have e := htot y z xc zc hy hz (fun h => h3 (Or.inl h)) (fun h => h4 (Or.inl h))
      subst e
      have hf : (s xc xc = true) = False := eq_false (hn xc)
      simp only [hf, false_or, not_false_eq_true, true_and] at h1 h2 h3 h4 ⊢
      omega

theorem SymbolOffsetCompare_strict_weak_witness :
    SymbolOffsetCompare exampleFindCommon examplePositionCompare exampleA exampleA
      = false ∧
    (SymbolOffsetCompare exampleFindCommon examplePositionCompare exampleC exampleA
        = true →
      SymbolOffsetCompare exampleFindCommon examplePositionCompare exampleA exampleB
        = true →
      SymbolOffsetCompare exampleFindCommon examplePositionCompare exampleC exampleB
        = true) := by
  have h := SymbolOffsetCompare_strict_weak exampleFindCommon examplePositionCompare
    (by intro a; simp [examplePositionCompare])
    (by
      intro a b c hab hbc
      simp only [examplePositionCompare, decide_eq_true_eq] at *
      exact Nat.lt_trans hab hbc)
    (by
      intro x y a b hx hy _ _
      unfold exampleFindCommon at hx hy
      split at hx
      · split at hy
        · injection hx with hx
          injection hy with hy
          rw [← hx, ← hy]
        · cases hy
      · cases hx)
  exact ⟨h.1 exampleA, h.2.2.1 exampleC exampleA exampleB⟩

/-! ### Merging is commutative in membership -/

/-- C25: when `A.CopyFrom(B)` and `B.CopyFrom(A)` both complete, the ultimate
symbols of the candidates of the two results are the same, namely those of A
together with those of B. -/
theorem CopyFrom_commutative_membership (st : SymbolTable) (A B A' B' : GenericDetails)
    (hA : A.CopyFrom st B = .ok A') (hB : B.CopyFrom st A = .ok B') (u : SymbolRef) :
    (u ∈ A'.specificProcs.map (GetUltimate st) ↔
      u ∈ B'.specificProcs.map (GetUltimate st)) ∧
    (u ∈ A'.specificProcs.map (GetUltimate st) ↔
      (u ∈ A.specificProcs.map (GetUltimate st) ∨
        u ∈ B.specificProcs.map (GetUltimate st))) := by
  have key : ∀ (G S G' : GenericDetails), G.CopyFrom st S = .ok G' →
      (u ∈ G'.specificProcs.map (GetUltimate st) ↔
        (u ∈ G.specificProcs.map (GetUltimate st) ∨
          u ∈ S.specificProcs.map (GetUltimate st))) := by
    intro G S G' h
    obtain ⟨-, hS, -, rfl⟩ := (CopyFrom.eq_ok_iff st G S G').1 h
    rw [CopyFrom.loop_specificProcs, List.map_fst_zip _ _ (le_of_eq hS)]
    exact firstSeen_mem_map _ _ _ u
  refine ⟨?_, key A B A' hA⟩
  rw [key A B A' hA, key B A B' hB]
  exact Or.comm

theorem CopyFrom_commutative_membership_witness :
    exampleGeneric.CopyFrom exampleTable exampleOther =
      .ok { specificProcs := [1, 3], bindingNames := [⟨20, "f"⟩, ⟨9, "g"⟩] } ∧
    exampleOther.CopyFrom exampleTable exampleGeneric =
      .ok { specificProcs := [3, 1], bindingNames := [⟨9, "g"⟩, ⟨20, "f"⟩] } ∧
    ((0 : SymbolRef) ∈ List.map (GetUltimate exampleTable) [1, 3] ↔
      (0 : SymbolRef) ∈ List.map (GetUltimate exampleTable) [3, 1]) :=
  ⟨rfl, rfl,
   (CopyFrom_commutative_membership exampleTable exampleGeneric exampleOther
      { specificProcs := [1, 3], bindingNames := [⟨20, "f"⟩, ⟨9, "g"⟩] }
      { specificProcs := [3, 1], bindingNames := [⟨9, "g"⟩, ⟨20, "f"⟩] } rfl rfl 0).1⟩

/-! ### Decimal numerals and strings -/

theorem digitValue_digitChar (d : Nat) (h : d < 10) : digitValue (Nat.digitChar d) = d := by
  interval_cases d <;> rfl

theorem decodeDigits_toDigitsCore :
    ∀ (fuel n : Nat) (ds : List Char), n < fuel →
      decodeDigits 0 (Nat.toDigitsCore 10 fuel n ds) = decodeDigits n ds := by
  intro fuel
  induction fuel with
  | zero => intro n ds h; omega
  | succ f ih =>
    intro n ds h
    unfold Nat.toDigitsCore
    simp only
    have hd : digitValue (Nat.digitChar (n % 10)) = n % 10 :=
      digitValue_digitChar _ (Nat.mod_lt _ (by decide))
    by_cases h0 : n / 10 = 0
    · rw [if_pos h0]
      simp only [decodeDigits, List.foldl_cons, hd]
      congr 1
      omega
    · rw [if_neg h0, ih (n / 10) _ (by omega)]
      simp only [decodeDigits, List.foldl_cons, hd]
      congr 1
      omega

theorem natRepr_injective (a b : Nat) (h : Nat.repr a = Nat.repr b) : a = b := by
  have h' : Nat.toDigits 10 a = Nat.toDigits 10 b := by
    have := congrArg String.data h
    simpa [Nat.repr, List.asString] using this
  have ha := decodeDigits_toDigitsCore (a + 1) a [] (Nat.lt_succ_self a)
  have hb := decodeDigits_toDigitsCore (b + 1) b [] (Nat.lt_succ_self b)
  unfold Nat.toDigits at h'
  rw [h'] at ha
  rw [ha] at hb
  simpa [decodeDigits] using hb

theorem string_append_left_cancel (s t₁ t₂ : String) (h : s ++ t₁ = s ++ t₂) : t₁ = t₂ := by
  have := congrArg String.data h
  rw [String.data_append, String.data_append] at this
  exact String.ext (List.append_cancel_left this)

/-! ### The parent component -/

/-- C26: `DerivedTypeDetails::GetParentComponent(scope)` returns a symbol
exactly when there is a first component name, the scope has a symbol under
it, and that symbol has the ParentComp flag, and then it is that symbol;
otherwise it returns none.  `Symbol::GetParentComponent` returns none on a
symbol whose details are not DerivedType, and when there is neither an
explicit scope nor a scope of the symbol; otherwise it is the lookup in the
explicit scope or else in the symbol's own. -/
theorem GetParentComponent_spec (scopes : ScopeTable) (st : SymbolTable)
    (d : DerivedTypeDetails) (scope : Scope) (s : Symbol) (explicit : Option ScopeRef) :
    (∀ r, d.GetParentComponent st scope = some r ↔
      ∃ first rest symbol, d.componentNames = first :: rest ∧
        scope.find first = some r ∧ st[r]? = some symbol ∧
        symbol.test Flag.ParentComp = true) ∧
    (d.GetParentComponent st scope = none ↔
      ¬ ∃ r first rest symbol, d.componentNames = first :: rest ∧
        scope.find first = some r ∧ st[r]? = some symbol ∧
        symbol.test Flag.ParentComp = true) ∧
    (s.details.kind ≠ Kind.DerivedType →
      s.GetParentComponent scopes st explicit = none) ∧
    (explicit = none → s.scope = none →
      s.GetParentComponent scopes st explicit = none) ∧
    (∀ dt localScope sc, s.details = .DerivedType dt →
      (explicit = some localScope ∨ (explicit = none ∧ s.scope = some localScope)) →
      scopes[localScope]? = some sc →
      s.GetParentComponent scopes st explicit = dt.GetParentComponent st sc) := by
  have hsome : ∀ r, d.GetParentComponent st scope = some r ↔
      ∃ first rest symbol, d.componentNames = first :: rest ∧
        scope.find first = some r ∧ st[r]? = some symbol ∧
        symbol.test Flag.ParentComp = true := by
    intro r
    constructor
    · intro h
      unfold DerivedTypeDetails.GetParentComponent
        DerivedTypeDetails.GetParentComponentName at h
      cases hc : d.componentNames with
      | nil => simp [hc] at h
      | cons first rest =>
        simp only [hc, List.head?_cons] at h
        cases hf : scope.find first with
        | none => simp [hf] at h
        | some iter =>
          simp only [hf] at h
          cases hl : st[iter]? with
          | none => simp [hl] at h
          | some symbol =>
            simp only [hl] at h
            by_cases ht : symbol.test Flag.ParentComp = true
            · rw [if_pos ht] at h
              injection h with h
              subst h
              exact ⟨first, rest, symbol, rfl, hf, hl, ht⟩
            · rw [if_neg ht] at h
              cases h
    · rintro ⟨first, rest, symbol, hc, hf, hl, ht⟩
      simp [DerivedTypeDetails.GetParentComponent,
        DerivedTypeDetails.GetParentComponentName, hc, hf, hl, ht]
  refine ⟨hsome, ?_, ?_, ?_, ?_⟩
  · constructor
    · rintro hn ⟨r, first, rest, symbol, h⟩
      have := (hsome r).2 ⟨first, rest, symbol, h⟩
      rw [hn] at this
      cases this
    · intro hn
      cases hr : d.GetParentComponent st scope with
      | none => rfl
      | some r =>
        obtain ⟨first, rest, symbol, h⟩ := (hsome r).1 hr
        exact absurd ⟨r, first, rest, symbol, h⟩ hn
  · intro hk
    unfold Symbol.GetParentComponent Symbol.detailsIfDerivedType
    cases hd : s.details <;> simp_all [Details.kind]
  · intro he hs
    unfold Symbol.GetParentComponent
    cases s.detailsIfDerivedType <;> simp [he, hs]
  · intro dt localScope sc hd hsc hl
    unfold Symbol.GetParentComponent Symbol.detailsIfDerivedType
    rcases hsc with he | ⟨he, hs⟩
    · simp [hd, he, hl]
    · simp [hd, he, hs, hl]

theorem GetParentComponent_spec_witness :
    DerivedTypeDetails.GetParentComponent exampleScopeSymbols
      { componentNames := [⟨80, "base"⟩, ⟨90, "n"⟩] }
      { kind := .DerivedType, symbols := [(⟨60, "base"⟩, 2), (⟨70, "n"⟩, 3)] } = some 2 ∧
    DerivedTypeDetails.GetParentComponent exampleScopeSymbols
      { componentNames := [⟨90, "n"⟩] }
      { kind := .DerivedType, symbols := [(⟨60, "base"⟩, 2), (⟨70, "n"⟩, 3)] } = none ∧
    (exampleSymbol (.Module {})).GetParentComponent exampleScopes exampleScopeSymbols
      (some 1) = none :=
  ⟨rfl, rfl,
   (GetParentComponent_spec exampleScopes exampleScopeSymbols {}
      { kind := .Global } (exampleSymbol (.Module {})) (some 1)).2.2.1 (by decide)⟩

/-! ### Unique names of scopes -/

theorem DumpUniqueName.index_eq (scopes : ScopeTable) (scope : ScopeRef)
    (kind : ScopeKind) :
    ∀ (l : List ScopeRef) (n : Nat),
      DumpUniqueName.index scopes scope kind l n =
        n + precedingOfKind scopes l scope kind := by
  intro l
  induction l with
  | nil => intro n; simp [DumpUniqueName.index, precedingOfKind]
  | cons child rest ih =>
    intro n
    unfold DumpUniqueName.index
    by_cases hc : child = scope
    · simp [hc, precedingOfKind]
    · have hb : (child == scope) = false := by simpa using hc
      have hne : (child != scope) = true := by simpa using hc
      rw [hb]
      simp only [Bool.false_eq_true, if_false]
      by_cases hk : ((scopes[child]?).map (fun c => c.kind) == some kind) = true
      · rw [if_pos hk, ih]
        simp only [precedingOfKind, List.takeWhile_cons, hne, if_true]
        rw [List.filter_cons_of_pos (by exact hk)]
        simp only [List.length_cons]
        omega
      · rw [if_neg hk, ih]
        simp only [precedingOfKind, List.takeWhile_cons, hne, if_true]
        rw [List.filter_cons_of_neg (by exact hk)]

theorem DumpUniqueName.go_enough_fuel (scopes : ScopeTable) (st : SymbolTable)
    (hwf : scopes.ParentsEarlier) :
    ∀ (fuel₁ fuel₂ : Nat) (r : Nat), r < fuel₁ → r < fuel₂ →
      DumpUniqueName.go scopes st fuel₁ r = DumpUniqueName.go scopes st fuel₂ r := by
  intro fuel₁
  induction fuel₁ with
  | zero => intro fuel₂ r h; omega
  | succ n ih =>
    intro fuel₂ r h₁ h₂
    cases fuel₂ with
    | zero => omega
    | succ m =>
      unfold DumpUniqueName.go
      cases hl : scopes[r]? with
      | none => rfl
      | some sc =>
        simp only
        cases ht : sc.IsTopLevel with
        | true => rfl
        | false =>
          simp only [Bool.not_false, if_true]
          cases hp : sc.parent with
          | none => rfl
          | some p =>
            simp only
            have hlt : p < r := hwf r sc p hl hp
            rw [ih m p (Nat.lt_of_lt_of_le hlt (Nat.le_of_lt_succ h₁))
              (Nat.lt_of_lt_of_le hlt (Nat.le_of_lt_succ h₂))]

theorem DumpUniqueName.eq_of_parent (scopes : ScopeTable) (st : SymbolTable)
    (hwf : scopes.ParentsEarlier) (r : Nat) (sc : Scope) (p : Nat)
    (hl : scopes[r]? = some sc) (ht : sc.IsTopLevel = false) (hp : sc.parent = some p) :
    DumpUniqueName scopes st r =
      DumpUniqueName scopes st p ++ "/" ++ DumpUniqueName.segment scopes st r sc p := by
  have hr : r < scopes.length := by
    by_contra hge
    rw [List.getElem?_eq_none (Nat.le_of_not_lt hge)] at hl
    cases hl
  have hlt : p < r := hwf r sc p hl hp
  unfold DumpUniqueName
  obtain ⟨n, hn⟩ : ∃ n, scopes.length = n + 1 := ⟨scopes.length - 1, by omega⟩
  rw [hn]
  conv_lhs => unfold DumpUniqueName.go
  simp only [hl, ht, hp, Bool.not_false, if_true]
  rw [DumpUniqueName.go_enough_fuel scopes st hwf n (n + 1) p
    (Nat.lt_of_lt_of_le hlt (by omega)) (Nat.lt_of_lt_of_le hlt (by omega))]

theorem precedingOfKind_ne (scopes : ScopeTable) (kind : ScopeKind) (a b : ScopeRef)
    (hab : a ≠ b)
    (ha : (scopes[a]?).map (fun x => x.kind) = some kind)
    (hb : (scopes[b]?).map (fun x => x.kind) = some kind) :
    ∀ children : List ScopeRef, a ∈ children → b ∈ children →
      precedingOfKind scopes children a kind ≠ precedingOfKind scopes children b kind := by
  intro children
  induction children with
  | nil => intro h; cases h
  | cons c rest ih =>
    intro hma hmb
    by_cases hca : c = a
    · subst hca
      have h1 : precedingOfKind scopes (c :: rest) c kind = 0 := by
        simp [precedingOfKind]
      have hne : (c != b) = true := by simpa using hab
      have h2 : precedingOfKind scopes (c :: rest) b kind =
          precedingOfKind scopes rest b kind + 1 := by
        simp only [precedingOfKind, List.takeWhile_cons, hne, if_true]
        rw [List.filter_cons_of_pos (by simp [ha])]
        simp
      omega
    · by_cases hcb : c = b
      · subst hcb
        have h1 : precedingOfKind scopes (c :: rest) c kind = 0 := by
          simp [precedingOfKind]
        have hne : (c != a) = true := by simpa using hca
        have h2 : precedingOfKind scopes (c :: rest) a kind =
            precedingOfKind scopes rest a kind + 1 := by
          simp only [precedingOfKind, List.takeWhile_cons, hne, if_true]
          rw [List.filter_cons_of_pos (by simp [hb])]
          simp
        omega
      · have hma' : a ∈ rest := by
          rcases List.mem_cons.1 hma with h | h
          · exact absurd h.symm hca
          · exact h
        have hmb' : b ∈ rest := by
          rcases List.mem_cons.1 hmb with h | h
          · exact absurd h.symm hcb
          · exact h
        have hna : (c != a) = true := by simpa using hca
        have hnb : (c != b) = true := by simpa using hcb
        have := ih hma' hmb'
        by_cases hk : ((scopes[c]?).map (fun x => x.kind) == some kind) = true
        · simp only [precedingOfKind, List.takeWhile_cons, hna, hnb, if_true]
          rw [List.filter_cons_of_pos (by exact hk), List.filter_cons_of_pos (by exact hk)]
          simp only [List.length_cons]
          unfold precedingOfKind at this
          omega
        · simp only [precedingOfKind, List.takeWhile_cons, hna, hnb, if_true]
          rw [List.filter_cons_of_neg (by exact hk), List.filter_cons_of_neg (by exact hk)]
          exact this

/-- C27: in a tree of scopes `DumpUniqueName` writes nothing for a top-level
scope (of kind Global or IntrinsicModules, with or without a parent) and, for
any other scope, what it writes for the parent, then `'/'`, then a segment:
the name of the scope's symbol when it has one with a name, and otherwise the
name of its kind followed by 1 plus the number of children of the parent
before it that have its kind.  Two different children of one parent with the
same kind get different ordinals, and different segments. -/
theorem DumpUniqueName_spec (scopes : ScopeTable) (st : SymbolTable)
    (hwf : scopes.ParentsEarlier) :
    (∀ r sc, scopes[r]? = some sc → sc.IsTopLevel = true →
      DumpUniqueName scopes st r = "") ∧
    (∀ r sc p pc, scopes[r]? = some sc → sc.IsTopLevel = false →
      sc.parent = some p → scopes[p]? = some pc →
      (∀ sr y, sc.symbol = some sr → st[sr]? = some y → y.name.chars ≠ "" →
        DumpUniqueName scopes st r =
          DumpUniqueName scopes st p ++ "/" ++ y.name.chars) ∧
      ((sc.symbol = none ∨
          ∃ sr y, sc.symbol = some sr ∧ st[sr]? = some y ∧ y.name.chars = "") →
        DumpUniqueName scopes st r =
          DumpUniqueName scopes st p ++ "/" ++
            (sc.kind.EnumToString ++
              Nat.repr (1 + precedingOfKind scopes pc.children r sc.kind)))) ∧
    (∀ (children : List ScopeRef) (a b : ScopeRef) (kind : ScopeKind),
      a ∈ children → b ∈ children → a ≠ b →
      (scopes[a]?).map (fun x => x.kind) = some kind →
      (scopes[b]?).map (fun x => x.kind) = some kind →
      1 + precedingOfKind scopes children a kind ≠
        1 + precedingOfKind scopes children b kind ∧
      kind.EnumToString ++ Nat.repr (1 + precedingOfKind scopes children a kind) ≠
        kind.EnumToString ++ Nat.repr (1 + precedingOfKind scopes children b kind)) := by
  refine ⟨?_, ?_, ?_⟩
  · intro r sc hl ht
    unfold DumpUniqueName
    cases hn : scopes.length with
    | zero => rfl
    | succ n => simp [DumpUniqueName.go, hl, ht]
  · intro r sc p pc hl ht hp hpc
    rw [DumpUniqueName.eq_of_parent scopes st hwf r sc p hl ht hp]
    constructor
    · intro sr y hs hy hne
      simp [DumpUniqueName.segment, hs, hy, hne, Option.filter]
    · intro h
      have hseg : DumpUniqueName.segment scopes st r sc p =
          sc.kind.EnumToString ++
            Nat.repr (1 + precedingOfKind scopes pc.children r sc.kind) := by
        unfold DumpUniqueName.segment
        rw [DumpUniqueName.index_eq]
        rcases h with h | ⟨sr, y, hs, hy, he⟩
        · simp [h, hpc]
        · simp [hs, hy, he, hpc, Option.filter]
      rw [hseg]
  · intro children a b kind hma hmb hab ha hb
    have hne := precedingOfKind_ne scopes kind a b hab ha hb children hma hmb
    refine ⟨by omega, ?_⟩
    intro he
    have := natRepr_injective _ _ (string_append_left_cancel _ _ _ he)
    omega

theorem DumpUniqueName_spec_witness :
    DumpUniqueName exampleScopes exampleScopeSymbols 0 = "" ∧
    DumpUniqueName exampleScopes exampleScopeSymbols 2 = "/m/BlockConstruct1" ∧
    DumpUniqueName exampleScopes exampleScopeSymbols 3 = "/m/s" ∧
    DumpUniqueName exampleScopes exampleScopeSymbols 4 = "/m/BlockConstruct2" ∧
    DumpUniqueName exampleScopes exampleScopeSymbols 5 = "" ∧
    DumpUniqueName exampleScopes exampleScopeSymbols 6 = "/iso" := by
  have hwf : ScopeTable.ParentsEarlier exampleScopes := by
    intro r sc p hl hp
    rcases r with _ | _ | _ | _ | _ | _ | _ | r <;>
      simp [exampleScopes] at hl <;> subst hl <;> simp at hp <;> subst hp <;> decide
  have h := DumpUniqueName_spec exampleScopes exampleScopeSymbols hwf
  refine ⟨h.1 0 _ rfl rfl, by decide, by decide, by decide, h.1 5 _ rfl rfl, ?_⟩
  have h6 := (h.2.1 6 _ 5 _ rfl rfl rfl rfl).1 4 _ rfl rfl (by decide)
  rw [h6, h.1 5 _ rfl rfl]
  decide

end Fortran.semantics

namespace mlir

/-! ### A unique symbol name -/

theorem ensureSymbolNameIsUnique.candidate_injective (symbolName : String) (a b : Nat)
    (h : symbolName ++ "_" ++ Nat.repr a = symbolName ++ "_" ++ Nat.repr b) : a = b :=
  Fortran.semantics.natRepr_injective a b
    (Fortran.semantics.string_append_left_cancel (symbolName ++ "_") _ _ h)

theorem ensureSymbolNameIsUnique.candidate_ne (symbolName : String) (a : Nat) :
    symbolName ++ "_" ++ Nat.repr a ≠ symbolName := by
  intro h
  have := congrArg String.length h
  simp only [String.length_append] at this
  have h1 : ("_" : String).length = 1 := rfl
  omega

theorem ensureSymbolNameIsUnique.loop_spec (M : ModuleOp) (symbolName : String) :
    ∀ (fuel : Nat) (L : List String) (cand : String) (c : Nat),
      L.length < fuel →
      (cand ∈ M → cand ∈ L) →
      (∀ c', c ≤ c' → symbolName ++ "_" ++ Nat.repr c' ∈ M →
        symbolName ++ "_" ++ Nat.repr c' ∈ L) →
      (∀ c', c ≤ c' → symbolName ++ "_" ++ Nat.repr c' ≠ cand) →
      ∃ name c'', ensureSymbolNameIsUnique.loop M symbolName fuel cand c = some (name, c'') ∧
        name ∉ M ∧
        ((cand ∉ M ∧ name = cand ∧ c'' = c) ∨
          (cand ∈ M ∧ ∃ k, c ≤ k ∧ c'' = k + 1 ∧
            name = symbolName ++ "_" ++ Nat.repr k)) ∧
        c'' ≤ c + L.length := by
  intro fuel
  induction fuel with
  | zero => intro L cand c h; omega
  | succ n ih =>
    intro L cand c hlen hcand hnext hne
    unfold ensureSymbolNameIsUnique.loop
    by_cases hm : cand ∈ M
    · have hlook : ModuleOp.lookupSymbol M cand = true := by
        simpa [ModuleOp.lookupSymbol] using hm
      rw [if_pos hlook]
      have hL : cand ∈ L := hcand hm
      have hlen' : (L.erase cand).length < n := by
        rw [List.length_erase_of_mem hL]
        have : 0 < L.length := List.length_pos_of_mem hL
        omega
      obtain ⟨name, c'', hres, hnot, hcase, hbound⟩ :=
        ih (L.erase cand) (symbolName ++ "_" ++ Nat.repr c) (c + 1) hlen'
          (fun h => (List.mem_erase_of_ne (hne c (le_refl c))).2 (hnext c (le_refl c) h))
          (fun c' hc' h =>
            (List.mem_erase_of_ne (hne c' (by omega))).2 (hnext c' (by omega) h))
          (fun c' hc' h => by
            have := ensureSymbolNameIsUnique.candidate_injective symbolName c' c h
            omega)
      refine ⟨name, c'', hres, hnot, Or.inr ⟨hm, ?_⟩, ?_⟩
      · rcases hcase with ⟨-, h1, h2⟩ | ⟨-, k, hk, h1, h2⟩
        · exact ⟨c, le_refl c, h2, h1⟩
        · exact ⟨k, by omega, h1, h2⟩
      · rw [List.length_erase_of_mem hL] at hbound
        have : 0 < L.length := List.length_pos_of_mem hL
        omega
    · have hlook : ¬ ModuleOp.lookupSymbol M cand = true := by
        simpa [ModuleOp.lookupSymbol] using hm
      rw [if_neg hlook]
      exact ⟨cand, c, rfl, hm, Or.inl ⟨hm, rfl, rfl⟩, by omega⟩

/-- C28: on the path without symbol tables, while the static counter stays
an `int`, `ensureSymbolNameIsUnique` terminates and returns a name for which
the module has no symbol: the requested name itself when the module has no
symbol of that name, and otherwise the requested name followed by `_` and
the decimal value of a counter; the counter afterwards is at most the number
of symbols of the module larger than before. -/
theorem ensureSymbolNameIsUnique_spec (moduleOp : ModuleOp) (symbolName : String)
    (counter : Nat) (hc : counter + moduleOp.length < 2 ^ 31) :
    ∃ name counter', ensureSymbolNameIsUnique moduleOp symbolName counter =
        some (name, counter') ∧
      moduleOp.lookupSymbol name = false ∧
      (moduleOp.lookupSymbol symbolName = false →
        name = symbolName ∧ counter' = counter) ∧
      (moduleOp.lookupSymbol symbolName = true →
        ∃ k, counter ≤ k ∧ counter' = k + 1 ∧
          name = symbolName ++ "_" ++ Nat.repr k) ∧
      counter' ≤ counter + moduleOp.length ∧ counter' < 2 ^ 31 := by
  obtain ⟨name, c'', hres, hnot, hcase, hbound⟩ :=
    ensureSymbolNameIsUnique.loop_spec moduleOp symbolName (moduleOp.length + 1)
      moduleOp symbolName counter (Nat.lt_succ_self _) id (fun _ _ h => h)
      (fun c' _ => ensureSymbolNameIsUnique.candidate_ne symbolName c')
  refine ⟨name, c'', hres, by simpa [ModuleOp.lookupSymbol] using hnot, ?_, ?_, hbound,
    by omega⟩
  · intro h
    have hm : symbolName ∉ moduleOp := by simpa [ModuleOp.lookupSymbol] using h
    rcases hcase with ⟨-, h1, h2⟩ | ⟨hin, -⟩
    · exact ⟨h1, h2⟩
    · exact absurd hin hm
  · intro h
    have hm : symbolName ∈ moduleOp := by simpa [ModuleOp.lookupSymbol] using h
    rcases hcase with ⟨hnin, -⟩ | ⟨-, k, hk, h1, h2⟩
    · exact absurd hm hnin
    · exact ⟨k, hk, h1, h2⟩

theorem ensureSymbolNameIsUnique_spec_witness :
    ensureSymbolNameIsUnique ["msg", "msg_0", "main", "msg_1"] "msg" 0 =
      some ("msg_2", 3) ∧
    ensureSymbolNameIsUnique ["main"] "msg" 5 = some ("msg", 5) ∧
    ∃ name counter', ensureSymbolNameIsUnique ["msg", "msg_0", "main", "msg_1"] "msg" 0 =
        some (name, counter') ∧
      ModuleOp.lookupSymbol ["msg", "msg_0", "main", "msg_1"] name = false := by
  obtain ⟨name, counter', h1, h2, -⟩ :=
    ensureSymbolNameIsUnique_spec ["msg", "msg_0", "main", "msg_1"] "msg" 0 (by decide)
  exact ⟨by decide, by decide, name, counter', h1, h2⟩

end mlir
